import Mathlib

/-!
Shallow embedding of the mlx5 poll-mode-driver control path
(`mlx5_rxq.c` hash-queue construction and descriptor-ring management,
`mlx5_mac.c` MAC filter table, `mlx5_rxmode.c` promiscuous/allmulticast
toggles), together with theorems settling the specification claims.

Modelling conventions:
* machine `unsigned int` arithmetic is `Nat` with an explicit `% 2 ^ 32`
  where C overflow could matter;
* hardware verbs calls that can fail (`ibv_exp_create_flow`,
  `ibv_exp_create_qp`, `ibv_exp_create_rwq_ind_table`, allocators) take
  their outcome from an explicit oracle argument; a call-counter is
  threaded so that successive calls consult successive oracle entries.
  The driver uses `EINVAL` when a creation fails without `errno` set, and
  the oracle models exactly that errno-less failure mode;
* C functions that return `0`/`errno` and mutate state through pointers
  become functions returning `errno × state` (plus the updated counter);
  `void` functions return just the state;
* flow-rule handles are modelled by presence flags: the driver only ever
  stores a handle, checks it against `NULL` and destroys it.
-/

namespace Mlx5

/-- errno value `EIO`. -/
def EIO : Nat := 5
/-- errno value `ENOMEM`. -/
def ENOMEM : Nat := 12
/-- errno value `EBUSY`. -/
def EBUSY : Nat := 16
/-- errno value `EINVAL`. -/
def EINVAL : Nat := 22
/-- errno value `ERANGE`. -/
def ERANGE : Nat := 34
/-- errno value `EADDRINUSE`. -/
def EADDRINUSE : Nat := 98
/-- errno value `ENOBUFS`. -/
def ENOBUFS : Nat := 105

/-- Loop body of `log2above` (mlx5_rxq.c:283):
`for (l = 0, r = 0; (v >> 1); ++l, v >>= 1) r |= (v & 1);`
Structural recursion on an explicit fuel; the loop halves `v` each
iteration, so fuel `v` is always enough. -/
def log2aboveAux : Nat → Nat → Nat → Nat → Nat
  | 0, _, l, r => l + r
  | fuel + 1, v, l, r =>
    if v / 2 = 0 then l + r
    else log2aboveAux fuel (v / 2) (l + 1) (r ||| (v % 2))

/-- `log2above` (mlx5_rxq.c:283): nearest power of two above input value
(returns `⌈log₂ v⌉` for `v ≥ 1`). -/
def log2above (v : Nat) : Nat := log2aboveAux v v 0 0

/-- The `wqs_n` initializer of `priv_create_hash_rxqs` (mlx5_rxq.c:309):
`1 << log2above((rxqs_n & (rxqs_n - 1)) ? ind_table_max_size : rxqs_n)`,
in `unsigned int` arithmetic. -/
def wqs_n_of (rxqs_n ind_table_max_size : Nat) : Nat :=
  (1 <<< log2above
    (if rxqs_n &&& (rxqs_n - 1) ≠ 0 then ind_table_max_size else rxqs_n)) % 2 ^ 32

/-- The `wqs[]` fill loop of `priv_create_hash_rxqs` (mlx5_rxq.c:351):
`for (i = 0, j = 0; i != wqs_n; ++i) { wqs[i] = rxqs[j]; if (++j == rxqs_n) j = 0; }` -/
def fillWqsAux (rxqs : List Nat) (j : Nat) : Nat → List Nat
  | 0 => []
  | m + 1 =>
      rxqs.getD j 0 ::
        fillWqsAux rxqs (if j + 1 = rxqs.length then 0 else j + 1) m

/-- The `wqs[]` array built by `priv_create_hash_rxqs` for a device whose
configured receive queues are `rxqs`. -/
def fillWqs (rxqs : List Nat) (wqs_n : Nat) : List Nat := fillWqsAux rxqs 0 wqs_n

/-- Modelled from the spec: the indirection table size the spec describes,
"the next power of two ≥ requested receive-queue count, but bounded above
by a hardware-reported maximum". Kept for comparison against `wqs_n_of`,
which is translated from the source. -/
def specTableSize (rxqs_n ind_table_max_size : Nat) : Nat :=
  min (2 ^ log2above rxqs_n) ind_table_max_size

theorem log2aboveAux_two_pow (k : Nat) :
    ∀ fuel l r, k ≤ fuel → log2aboveAux fuel (2 ^ k) l r = (l + k) + r := by
  induction k with
  | zero =>
      intro fuel l r _
      cases fuel with
      | zero => simp [log2aboveAux]
      | succ f => simp [log2aboveAux]
  | succ k ih =>
      intro fuel l r hk
      cases fuel with
      | zero => omega
      | succ f =>
          have h2 : 2 ^ (k + 1) / 2 = 2 ^ k := by
            rw [Nat.pow_succ]; simp
          have hp : 0 < 2 ^ k := Nat.pow_pos (by norm_num)
          have hmod : 2 ^ (k + 1) % 2 = 0 := by
            rw [Nat.pow_succ, Nat.mul_mod_left]
          rw [log2aboveAux, if_neg (by omega), h2, hmod, Nat.or_zero,
            ih f (l + 1) r (by omega)]
          omega

theorem log2above_two_pow (k : Nat) : log2above (2 ^ k) = k := by
  have hk : k ≤ 2 ^ k := Nat.le_of_lt (Nat.lt_two_pow k)
  unfold log2above
  rw [log2aboveAux_two_pow k (2 ^ k) 0 0 hk]
  omega

/-- A power of two against its predecessor mask: `2^k & (2^k - 1) = 0`,
i.e. the C test `(n & (n - 1))` recognises powers of two. -/
theorem two_pow_and_pred_mask (k : Nat) : 2 ^ k &&& (2 ^ k - 1) = 0 := by
  apply Nat.eq_of_testBit_eq
  intro i
  rw [Nat.testBit_and, Nat.zero_testBit]
  rcases Nat.lt_trichotomy i k with h | h | h
  · rw [Nat.testBit_two_pow_of_ne (by omega : k ≠ i)]
    simp
  · subst h
    rw [Nat.testBit_two_pow_sub_one]
    simp
  · rw [Nat.testBit_two_pow_of_ne (by omega : k ≠ i)]
    simp

/-- When the requested queue count is a power of two (at most `2^31`, so
that the unsigned shift does not overflow), `wqs_n` is the count itself. -/
theorem wqs_n_of_pow2 (k max : Nat) (hk : k ≤ 31) :
    wqs_n_of (2 ^ k) max = 2 ^ k := by
  unfold wqs_n_of
  rw [if_neg (by simp [two_pow_and_pred_mask k])]
  rw [log2above_two_pow, Nat.shiftLeft_eq, Nat.one_mul]
  exact Nat.mod_eq_of_lt (Nat.pow_lt_pow_right (by norm_num) (by omega))

/-- When the requested queue count is not a power of two, `wqs_n` is
derived from the hardware maximum, not from the requested count. -/
theorem wqs_n_of_not_pow2 (n max : Nat) (h : n &&& (n - 1) ≠ 0) :
    wqs_n_of n max = 2 ^ log2above max % 2 ^ 32 := by
  unfold wqs_n_of
  rw [if_pos h, Nat.shiftLeft_eq, Nat.one_mul]

theorem fillWqsAux_getElem (rxqs : List Nat) (hne : rxqs ≠ []) :
    ∀ (m j t : Nat), j < rxqs.length → t < m →
      (fillWqsAux rxqs j m).getD t 0 = rxqs.getD ((j + t) % rxqs.length) 0 := by
  intro m
  induction m with
  | zero => intro j t _ ht; omega
  | succ m ih =>
      intro j t hj ht
      have hlen : 0 < rxqs.length := List.length_pos.mpr hne
      cases t with
      | zero =>
          simp only [fillWqsAux, List.getD_cons_zero]
          rw [Nat.add_zero, Nat.mod_eq_of_lt hj]
      | succ t =>
          simp only [fillWqsAux, List.getD_cons_succ]
          by_cases hwrap : j + 1 = rxqs.length
          · rw [if_pos hwrap, ih 0 t hlen (by omega)]
            congr 1
            have hj : j + (t + 1) = rxqs.length + t := by omega
            rw [Nat.zero_add, hj, Nat.add_comm rxqs.length t, Nat.add_mod_right]
          · rw [if_neg hwrap, ih (j + 1) t (by omega) (by omega)]
            have h : j + 1 + t = j + (t + 1) := by omega
            rw [h]

/-- C1, counterexample: with 5 requested receive queues and a
hardware-reported maximum of 16, the code computes an indirection table
size of 16 (the maximum), while the claimed formula — next power of two
above the requested count, bounded by the maximum — gives 8; the range
guard of `priv_create_hash_rxqs` passes, so construction proceeds with
size 16. The claim is therefore false as stated. -/
theorem c1_tableSize_counterexample :
    wqs_n_of 5 16 = 16 ∧ specTableSize 5 16 = 8 ∧
      ¬ (wqs_n_of 5 16 < 5 ∨ wqs_n_of 5 16 > 16) := by decide

/-- C1, amended: `priv_create_hash_rxqs` uses the requested receive-queue
count directly as the indirection table size when that count is a power of
two; when it is **not** a power of two the size is instead derived from the
hardware-reported maximum (rounded up to a power of two), not from the
requested count; and the `wqs[]` table is padded by cyclically repeating
the configured receive queues (`wqs[t] = rxqs[t mod rxqs_n]`). -/
theorem c1_tableSize_amended :
    (∀ k max, k ≤ 31 → wqs_n_of (2 ^ k) max = 2 ^ k)
    ∧ (∀ n max, n &&& (n - 1) ≠ 0 →
        wqs_n_of n max = 2 ^ log2above max % 2 ^ 32)
    ∧ (∀ (rxqs : List Nat) (m t : Nat), rxqs ≠ [] → t < m →
        (fillWqs rxqs m).getD t 0 = rxqs.getD (t % rxqs.length) 0) := by
  refine ⟨wqs_n_of_pow2, wqs_n_of_not_pow2, ?_⟩
  intro rxqs m t hne ht
  unfold fillWqs
  rw [fillWqsAux_getElem rxqs hne m 0 t (List.length_pos.mpr hne) ht]
  rw [Nat.zero_add]

/-- C1, witness for the amended theorem at concrete inputs. -/
theorem c1_tableSize_amended_witness :
    wqs_n_of (2 ^ 2) 16 = 2 ^ 2 ∧
      wqs_n_of 6 16 = 2 ^ log2above 16 % 2 ^ 32 ∧
      (fillWqs [10, 20, 30] 8).getD 5 0 = [10, 20, 30].getD (5 % 3) 0 :=
  ⟨c1_tableSize_amended.1 2 16 (by decide),
   c1_tableSize_amended.2.1 6 16 (by decide),
   c1_tableSize_amended.2.2 [10, 20, 30] 8 5 (by decide) (by decide)⟩

/-! ### MAC filter table and RX mode state (mlx5_mac.c, mlx5_rxmode.c)

A `HashRxq` models `struct hash_rxq`: the per-queue flow-rule handle
tables (`mac_flow[mac_index][vlan_index]`, `promisc_flow`,
`allmulti_flow`, each modelled as a presence flag) and the per-queue
`mac_configured` bitfield.  A `Priv` models the fields of `struct priv`
these files use: the shadow MAC table `mac[]` (6-byte addresses) with its
`mac_configured` bitfield, the VLAN filter, the list of hash RX queues,
and the `started`/`vf`/`promisc`/`allmulti` flags.  Array sizes
(`elemof(priv->mac)`, `elemof(priv->vlan_filter)`) are the fields
`n_mac` and `n_vlan`. -/

/-- Per-queue flow-rule state of `struct hash_rxq`. -/
@[ext]
structure HashRxq where
  mac_flow : Nat → Nat → Bool
  mac_configured : Nat → Bool
  promisc_flow : Bool
  allmulti_flow : Bool

/-- Shadow state of `struct priv` used by the MAC/rxmode control path. -/
@[ext]
structure Priv where
  n_mac : Nat
  n_vlan : Nat
  mac : Nat → List Nat
  mac_configured : Nat → Bool
  vlan_enabled : Nat → Bool
  hash_rxqs : List HashRxq
  started : Bool
  vf : Bool
  promisc : Bool
  allmulti : Bool

/-- The broadcast address `ff:ff:ff:ff:ff:ff`. -/
def broadcastMac : List Nat := [255, 255, 255, 255, 255, 255]

/-- `hash_rxq_del_flow` (mlx5_mac.c:102): destroy the flow rule stored at
`mac_flow[mac_index][vlan_index]` and null the slot. -/
def hash_rxq_del_flow (q : HashRxq) (mac_index vlan_index : Nat) : HashRxq :=
  { q with mac_flow := fun i v =>
      if i = mac_index ∧ v = vlan_index then false else q.mac_flow i v }

/-- `hash_rxq_add_flow` (mlx5_mac.c:247): create a flow rule for
`mac_index`, with an exact VLAN match when `vlan_index` is given and a
wildcarded VLAN otherwise (the C sentinel `-1u`, which stores the handle
at VLAN slot 0).  Creation success comes from the hardware oracle `hw` at
the current call counter; a failed creation reports `EINVAL` (the
errno-less failure path of `ibv_exp_create_flow`). -/
def hash_rxq_add_flow (q : HashRxq) (mac_index : Nat) (vlan_index : Option Nat)
    (hw : Nat → Bool) (ctr : Nat) : Nat × HashRxq × Nat :=
  if hw ctr then
    let v := vlan_index.getD 0
    (0, { q with mac_flow := fun i w =>
        if i = mac_index ∧ w = v then true else q.mac_flow i w }, ctr + 1)
  else (EINVAL, q, ctr + 1)

/-- The VLAN loop of `hash_rxq_mac_addr_del` (mlx5_mac.c:141): delete the
flow of every enabled VLAN index, counting them. -/
def delVlanLoop (p : Priv) (mac_index : Nat) :
    HashRxq → List Nat → HashRxq × Nat
  | q, [] => (q, 0)
  | q, v :: rest =>
    if p.vlan_enabled v then
      let t := delVlanLoop p mac_index (hash_rxq_del_flow q mac_index v) rest
      (t.1, t.2 + 1)
    else delVlanLoop p mac_index q rest

/-- Set or clear one bit of a queue's `mac_configured` bitfield. -/
def setQBit (q : HashRxq) (i : Nat) (b : Bool) : HashRxq :=
  { q with mac_configured := fun j => if j = i then b else q.mac_configured j }

/-- `hash_rxq_mac_addr_del` (mlx5_mac.c:131): no-op unless the index is
configured on this queue; otherwise delete the flow of every enabled VLAN
(or the VLAN-less flow at slot 0 when no VLAN filter is enabled) and
clear the queue's configured bit. -/
def hash_rxq_mac_addr_del (p : Priv) (q : HashRxq) (mac_index : Nat) : HashRxq :=
  if ¬ q.mac_configured mac_index then q
  else
    let t := delVlanLoop p mac_index q (List.range p.n_vlan)
    setQBit (if t.2 = 0 then hash_rxq_del_flow t.1 mac_index 0 else t.1)
      mac_index false

/-- The VLAN loop of `hash_rxq_mac_addr_add` (mlx5_mac.c:338): add a flow
per enabled VLAN; on failure roll back the flows of the earlier enabled
VLANs (in descending order) and return the error.  Also returns the count
of enabled VLANs processed. -/
def addVlanLoop (p : Priv) (mac_index : Nat) (hw : Nat → Bool) :
    HashRxq → Nat → List Nat → Nat × HashRxq × Nat × Nat
  | q, ctr, [] => (0, q, ctr, 0)
  | q, ctr, v :: rest =>
    if p.vlan_enabled v then
      let t := hash_rxq_add_flow q mac_index (some v) hw ctr
      if t.1 = 0 then
        let s := addVlanLoop p mac_index hw t.2.1 t.2.2 rest
        if s.1 = 0 then (0, s.2.1, s.2.2.1, s.2.2.2 + 1)
        else (s.1, hash_rxq_del_flow s.2.1 mac_index v, s.2.2.1, 0)
      else (t.1, t.2.1, t.2.2, 0)
    else addVlanLoop p mac_index hw q ctr rest

/-- `hash_rxq_mac_addr_add` (mlx5_mac.c:326): delete the index first when
already configured on the queue, add one flow per enabled VLAN (or one
VLAN-less flow when none is enabled), and set the configured bit. -/
def hash_rxq_mac_addr_add_vlans (p : Priv) (q0 : HashRxq) (mac_index : Nat)
    (hw : Nat → Bool) (ctr : Nat) : Nat × HashRxq × Nat :=
  let t := addVlanLoop p mac_index hw q0 ctr (List.range p.n_vlan)
  if t.1 = 0 then
    if t.2.2.2 = 0 then
      let s := hash_rxq_add_flow t.2.1 mac_index none hw t.2.2.1
      if s.1 = 0 then (0, setQBit s.2.1 mac_index true, s.2.2)
      else (s.1, s.2.1, s.2.2)
    else (0, setQBit t.2.1 mac_index true, t.2.2.1)
  else (t.1, t.2.1, t.2.2.1)

/-- `hash_rxq_mac_addr_add` (mlx5_mac.c:326), step two: the VLAN loop and
configured-bit update, split out so the delete-first step above stays
separate. -/
def hash_rxq_mac_addr_add (p : Priv) (q : HashRxq) (mac_index : Nat)
    (hw : Nat → Bool) (ctr : Nat) : Nat × HashRxq × Nat :=
  hash_rxq_mac_addr_add_vlans p
    (if q.mac_configured mac_index
      then hash_rxq_mac_addr_del p q mac_index else q) mac_index hw ctr

/-- The loop of `hash_rxq_mac_addrs_del` (mlx5_mac.c:159). -/
def macsDelLoop (p : Priv) : HashRxq → List Nat → HashRxq
  | q, [] => q
  | q, i :: rest => macsDelLoop p (hash_rxq_mac_addr_del p q i) rest

/-- `hash_rxq_mac_addrs_del` (mlx5_mac.c:159): unregister every MAC index
from one RX hash queue. -/
def hash_rxq_mac_addrs_del (p : Priv) (q : HashRxq) : HashRxq :=
  macsDelLoop p q (List.range p.n_mac)

/-- The loop of `hash_rxq_mac_addrs_add` (mlx5_mac.c:373): register every
MAC index configured in the shadow table; on failure roll back all earlier
indices (descending) and return the error. -/
def macsAddLoop (p : Priv) (hw : Nat → Bool) :
    HashRxq → Nat → List Nat → Nat × HashRxq × Nat
  | q, ctr, [] => (0, q, ctr)
  | q, ctr, i :: rest =>
    if ¬ p.mac_configured i then
      let s := macsAddLoop p hw q ctr rest
      if s.1 = 0 then (0, s.2.1, s.2.2)
      else (s.1, hash_rxq_mac_addr_del p s.2.1 i, s.2.2)
    else
      let t := hash_rxq_mac_addr_add p q i hw ctr
      if t.1 = 0 then
        let s := macsAddLoop p hw t.2.1 t.2.2 rest
        if s.1 = 0 then (0, s.2.1, s.2.2)
        else (s.1, hash_rxq_mac_addr_del p s.2.1 i, s.2.2)
      else (t.1, t.2.1, t.2.2)

/-- `hash_rxq_mac_addrs_add` (mlx5_mac.c:373). -/
def hash_rxq_mac_addrs_add (p : Priv) (q : HashRxq) (hw : Nat → Bool)
    (ctr : Nat) : Nat × HashRxq × Nat :=
  macsAddLoop p hw q ctr (List.range p.n_mac)

/-- Set or clear one bit of the device's `mac_configured` bitfield. -/
def setPrivBit (p : Priv) (i : Nat) (b : Bool) : Priv :=
  { p with mac_configured := fun j => if j = i then b else p.mac_configured j }

/-- `priv_mac_addr_del` (mlx5_mac.c:179): no-op unless configured;
otherwise unregister the index from every hash queue and clear the shadow
configured bit. -/
def priv_mac_addr_del (p : Priv) (mac_index : Nat) : Priv :=
  if ¬ p.mac_configured mac_index then p
  else
    let qs := p.hash_rxqs.map (fun q => hash_rxq_mac_addr_del p q mac_index)
    setPrivBit { p with hash_rxqs := qs } mac_index false

/-- The queue loop of `priv_mac_addr_add` (mlx5_mac.c:450): register the
index on every hash queue; on failure unregister it from all earlier
queues (descending) and return the error. -/
def privQueueAddLoop (p : Priv) (mac_index : Nat) (hw : Nat → Bool) :
    List HashRxq → Nat → Nat × List HashRxq × Nat
  | [], ctr => (0, [], ctr)
  | q :: rest, ctr =>
    let t := hash_rxq_mac_addr_add p q mac_index hw ctr
    if t.1 = 0 then
      let s := privQueueAddLoop p mac_index hw rest t.2.2
      if s.1 = 0 then (0, t.2.1 :: s.2.1, s.2.2)
      else (s.1, hash_rxq_mac_addr_del p t.2.1 mac_index :: s.2.1, s.2.2)
    else (t.1, t.2.1 :: rest, t.2.2)

/-- `priv_mac_addr_add` (mlx5_mac.c:410): refuse with `EADDRINUSE` when
another configured slot already holds the address (checked before any
mutation); otherwise delete any existing entry at the index, store the new
bytes, reprogram every hash queue when the device is started (with
rollback on failure), and finally set the shadow configured bit. -/
def priv_mac_addr_add (p : Priv) (mac_index : Nat) (mac : List Nat)
    (hw : Nat → Bool) (ctr : Nat) : Nat × Priv × Nat :=
  if (List.range p.n_mac).any
      (fun j => j != mac_index && p.mac_configured j && p.mac j == mac) then
    (EADDRINUSE, p, ctr)
  else
    let p1 := if p.mac_configured mac_index
      then priv_mac_addr_del p mac_index else p
    let p2 := { p1 with mac := fun j => if j = mac_index then mac else p1.mac j }
    if ¬ p2.started then (0, setPrivBit p2 mac_index true, ctr)
    else
      let t := privQueueAddLoop p2 mac_index hw p2.hash_rxqs ctr
      if t.1 = 0 then
        (0, setPrivBit { p2 with hash_rxqs := t.2.1 } mac_index true, t.2.2)
      else (t.1, { p2 with hash_rxqs := t.2.1 }, t.2.2)

/-- `mlx5_mac_addr_add` (mlx5_mac.c:505), the `void` DPDK callback: an
out-of-range index or the broadcast address is silently ignored (no error
can be reported); otherwise delegate to `priv_mac_addr_add`, discarding
its status. -/
def mlx5_mac_addr_add (p : Priv) (mac_addr : List Nat) (index : Nat)
    (hw : Nat → Bool) (ctr : Nat) : Priv × Nat :=
  if p.n_mac ≤ index then (p, ctr)
  else if mac_addr == broadcastMac then (p, ctr)
  else
    let t := priv_mac_addr_add p index mac_addr hw ctr
    (t.2.1, t.2.2)

/-- `hash_rxq_promiscuous_enable` (mlx5_rxmode.c:73): a silent success on
virtual functions (before any other check); `EBUSY` when a promiscuous
flow is already installed; otherwise create the broad-match flow. -/
def hash_rxq_promiscuous_enable (p : Priv) (q : HashRxq) (hw : Nat → Bool)
    (ctr : Nat) : Nat × HashRxq × Nat :=
  if p.vf then (0, q, ctr)
  else if q.promisc_flow then (EBUSY, q, ctr)
  else if hw ctr then (0, { q with promisc_flow := true }, ctr + 1)
  else (EINVAL, q, ctr + 1)

/-- `hash_rxq_promiscuous_disable` (mlx5_rxmode.c:171): a silent no-op on
virtual functions or when no promiscuous flow is installed; otherwise
destroy the broad-match flow. -/
def hash_rxq_promiscuous_disable (p : Priv) (q : HashRxq) : HashRxq :=
  if p.vf then q
  else if ¬ q.promisc_flow then q
  else { q with promisc_flow := false }

/-- The queue loop of `priv_promiscuous_enable` (mlx5_rxmode.c:122):
delete the per-MAC flows of each queue, then enable promiscuous mode on
it; on failure disable promiscuous mode on every earlier queue
(descending) and restore its MAC flows if the device is started, ignoring
restore errors. -/
def promiscEnableLoop (p : Priv) (hw : Nat → Bool) :
    List HashRxq → Nat → Nat × List HashRxq × Nat
  | [], ctr => (0, [], ctr)
  | q :: rest, ctr =>
    let t := hash_rxq_promiscuous_enable p (hash_rxq_mac_addrs_del p q) hw ctr
    if t.1 = 0 then
      let s := promiscEnableLoop p hw rest t.2.2
      if s.1 = 0 then (0, t.2.1 :: s.2.1, s.2.2)
      else
        let q3 := hash_rxq_promiscuous_disable p t.2.1
        if p.started then
          let u := hash_rxq_mac_addrs_add p q3 hw s.2.2
          (s.1, u.2.1 :: s.2.1, u.2.2)
        else (s.1, q3 :: s.2.1, s.2.2)
    else (t.1, t.2.1 :: rest, t.2.2)

/-- `priv_promiscuous_enable` (mlx5_rxmode.c:115): idempotent; the
`promisc` flag is set only after every queue succeeded. -/
def priv_promiscuous_enable (p : Priv) (hw : Nat → Bool) (ctr : Nat) :
    Nat × Priv × Nat :=
  if p.promisc then (0, p, ctr)
  else
    let t := promiscEnableLoop p hw p.hash_rxqs ctr
    if t.1 = 0 then
      (0, { p with hash_rxqs := t.2.1, promisc := true }, t.2.2)
    else (t.1, { p with hash_rxqs := t.2.1 }, t.2.2)

/-- The queue loop of `priv_promiscuous_disable` (mlx5_rxmode.c:197):
disable promiscuous mode on each queue and, if the device is started,
restore its MAC flows (ignoring errors). -/
def promiscDisableLoop (p : Priv) (hw : Nat → Bool) :
    List HashRxq → Nat → List HashRxq × Nat
  | [], ctr => ([], ctr)
  | q :: rest, ctr =>
    let q1 := hash_rxq_promiscuous_disable p q
    if p.started then
      let u := hash_rxq_mac_addrs_add p q1 hw ctr
      let s := promiscDisableLoop p hw rest u.2.2
      (u.2.1 :: s.1, s.2)
    else
      let s := promiscDisableLoop p hw rest ctr
      (q1 :: s.1, s.2)

/-- `priv_promiscuous_disable` (mlx5_rxmode.c:190): no-op unless the
`promisc` flag is set; otherwise disable promiscuous mode on every queue,
restore MAC flows only when the device is started, and clear the flag. -/
def priv_promiscuous_disable (p : Priv) (hw : Nat → Bool) (ctr : Nat) :
    Priv × Nat :=
  if ¬ p.promisc then (p, ctr)
  else
    let t := promiscDisableLoop p hw p.hash_rxqs ctr
    ({ p with hash_rxqs := t.1, promisc := false }, t.2)

/-- `hash_rxq_allmulticast_enable` (mlx5_rxmode.c:234): `EBUSY` when an
allmulticast flow is already installed; otherwise create the broad
multicast flow (no VF short-circuit here). -/
def hash_rxq_allmulticast_enable (q : HashRxq) (hw : Nat → Bool)
    (ctr : Nat) : Nat × HashRxq × Nat :=
  if q.allmulti_flow then (EBUSY, q, ctr)
  else if hw ctr then (0, { q with allmulti_flow := true }, ctr + 1)
  else (EINVAL, q, ctr + 1)

/-- `hash_rxq_allmulticast_disable` (mlx5_rxmode.c:324). -/
def hash_rxq_allmulticast_disable (q : HashRxq) : HashRxq :=
  if ¬ q.allmulti_flow then q
  else { q with allmulti_flow := false }

/-- The queue loop of `priv_allmulticast_enable` (mlx5_rxmode.c:280): on
failure, disable allmulticast mode on every earlier queue (descending). -/
def allmultiEnableLoop (hw : Nat → Bool) :
    List HashRxq → Nat → Nat × List HashRxq × Nat
  | [], ctr => (0, [], ctr)
  | q :: rest, ctr =>
    let t := hash_rxq_allmulticast_enable q hw ctr
    if t.1 = 0 then
      let s := allmultiEnableLoop hw rest t.2.2
      if s.1 = 0 then (0, t.2.1 :: s.2.1, s.2.2)
      else (s.1, hash_rxq_allmulticast_disable t.2.1 :: s.2.1, s.2.2)
    else (t.1, t.2.1 :: rest, t.2.2)

/-- `priv_allmulticast_enable` (mlx5_rxmode.c:273): idempotent; the
`allmulti` flag is set only after every queue succeeded. -/
def priv_allmulticast_enable (p : Priv) (hw : Nat → Bool) (ctr : Nat) :
    Nat × Priv × Nat :=
  if p.allmulti then (0, p, ctr)
  else
    let t := allmultiEnableLoop hw p.hash_rxqs ctr
    if t.1 = 0 then
      (0, { p with hash_rxqs := t.2.1, allmulti := true }, t.2.2)
    else (t.1, { p with hash_rxqs := t.2.1 }, t.2.2)

/-- `priv_allmulticast_disable` (mlx5_rxmode.c:342). -/
def priv_allmulticast_disable (p : Priv) : Priv :=
  if ¬ p.allmulti then p
  else
    { p with hash_rxqs := p.hash_rxqs.map hash_rxq_allmulticast_disable,
             allmulti := false }

/-- The conflict scan of `priv_mac_addr_add` (mlx5_mac.c:419), as a
proposition. -/
theorem conflict_any_iff (p : Priv) (i : Nat) (a : List Nat) :
    ((List.range p.n_mac).any
        (fun j => j != i && p.mac_configured j && p.mac j == a) = true)
    ↔ ∃ j, j < p.n_mac ∧ j ≠ i ∧ p.mac_configured j = true ∧ p.mac j = a := by
  rw [List.any_eq_true]
  constructor
  · rintro ⟨j, hj, hcond⟩
    rw [List.mem_range] at hj
    simp only [Bool.and_eq_true, bne_iff_ne, beq_iff_eq] at hcond
    exact ⟨j, hj, hcond.1.1, hcond.1.2, hcond.2⟩
  · rintro ⟨j, hj, hne, hcfg, hmac⟩
    refine ⟨j, List.mem_range.mpr hj, ?_⟩
    simp only [Bool.and_eq_true, bne_iff_ne, beq_iff_eq]
    exact ⟨⟨hne, hcfg⟩, hmac⟩

/-- A fixed device state with two empty MAC slots and no hash queues. -/
def privC2 : Priv :=
  { n_mac := 2, n_vlan := 0, mac := fun _ => [0, 0, 0, 0, 0, 0],
    mac_configured := fun _ => false, vlan_enabled := fun _ => false,
    hash_rxqs := [], started := false, vf := false,
    promisc := false, allmulti := false }

/-- C2, counterexample: the claim says adding the broadcast address
"fails with InvalidArgument" (`EINVAL`).  But the only layer that reports
errors, `priv_mac_addr_add`, performs no broadcast check at all: on an
empty table it accepts the broadcast address and returns 0.  (The
broadcast refusal lives in the `void` DPDK callback `mlx5_mac_addr_add`,
which cannot report any error.) -/
theorem c2_broadcast_counterexample :
    (priv_mac_addr_add privC2 0 broadcastMac (fun _ => true) 0).1 = 0 ∧
      (0 : Nat) ≠ EINVAL := by decide

/-- C2, amended: adding the broadcast address at any index is *silently
ignored* by the DPDK callback `mlx5_mac_addr_add`: the filter table (and
every other device field) is left unchanged, and no error is reported —
the callback returns `void` and performs no hardware call. -/
theorem c2_broadcast_silent (p : Priv) (index : Nat) (hw : Nat → Bool)
    (ctr : Nat) : mlx5_mac_addr_add p broadcastMac index hw ctr = (p, ctr) := by
  unfold mlx5_mac_addr_add
  by_cases h : p.n_mac ≤ index
  · rw [if_pos h]
  · rw [if_neg h]
    simp [broadcastMac]

/-- C3: (1) if another configured slot `j ≠ i` holds address `a`, then
`priv_mac_addr_add` fails with `EADDRINUSE` and returns with the device
state and the hardware call counter untouched; (2) the slot `i` itself
holding `a` does not trigger the conflict: when no *other* slot holds
`a`, the add succeeds (shown here for a device that is not started, where
only the shadow table is involved) and the entry at `i` is replaced. -/
theorem c3_addr_conflict (p : Priv) (i : Nat) (a : List Nat)
    (hw : Nat → Bool) (ctr : Nat) :
    ((∃ j, j < p.n_mac ∧ j ≠ i ∧ p.mac_configured j = true ∧ p.mac j = a) →
      priv_mac_addr_add p i a hw ctr = (EADDRINUSE, p, ctr))
    ∧ ((∀ j, j < p.n_mac → j ≠ i → p.mac_configured j = true → p.mac j ≠ a) →
        p.started = false →
        (priv_mac_addr_add p i a hw ctr).1 = 0 ∧
        (priv_mac_addr_add p i a hw ctr).2.1.mac i = a ∧
        (priv_mac_addr_add p i a hw ctr).2.1.mac_configured i = true) := by
  constructor
  · intro hex
    unfold priv_mac_addr_add
    rw [if_pos ((conflict_any_iff p i a).mpr hex)]
  · intro hall hstart
    have hno : ¬ ((List.range p.n_mac).any
        (fun j => j != i && p.mac_configured j && p.mac j == a) = true) := by
      rw [conflict_any_iff]
      rintro ⟨j, hj, hne, hcfg, hmac⟩
      exact hall j hj hne hcfg hmac
    unfold priv_mac_addr_add
    rw [if_neg hno]
    by_cases hc : p.mac_configured i
    · rw [if_pos hc]
      have hds : (priv_mac_addr_del p i).started = false := by
        unfold priv_mac_addr_del
        rw [if_neg (by simp [hc])]
        simpa using hstart
      rw [if_pos (by simp [hds])]
      refine ⟨rfl, ?_, ?_⟩
      · show (if i = i then a else _) = a
        rw [if_pos rfl]
      · show (if i = i then true else _) = true
        rw [if_pos rfl]
    · rw [if_neg hc]
      rw [if_pos (by simp [hstart])]
      refine ⟨rfl, ?_, ?_⟩
      · show (if i = i then a else _) = a
        rw [if_pos rfl]
      · show (if i = i then true else _) = true
        rw [if_pos rfl]

/-- A device with one configured address at slot 0 and an empty slot 1. -/
def privC3 : Priv :=
  { n_mac := 2, n_vlan := 0,
    mac := fun j => if j = 0 then [0, 1, 2, 3, 4, 5] else [0, 0, 0, 0, 0, 0],
    mac_configured := fun j => j == 0, vlan_enabled := fun _ => false,
    hash_rxqs := [], started := false, vf := false,
    promisc := false, allmulti := false }

/-- C3, witness: adding slot 0's address at slot 1 fails with
`EADDRINUSE`; re-adding it at slot 0 itself succeeds. -/
theorem c3_addr_conflict_witness :
    priv_mac_addr_add privC3 1 [0, 1, 2, 3, 4, 5] (fun _ => true) 0
        = (EADDRINUSE, privC3, 0) ∧
      (priv_mac_addr_add privC3 0 [0, 1, 2, 3, 4, 5] (fun _ => true) 0).1 = 0 :=
  ⟨(c3_addr_conflict privC3 1 [0, 1, 2, 3, 4, 5] (fun _ => true) 0).1
      ⟨0, by decide, by decide, by decide, by decide⟩,
   ((c3_addr_conflict privC3 0 [0, 1, 2, 3, 4, 5] (fun _ => true) 0).2
      (by decide) (by decide)).1⟩

/-- A device with two distinct unconfigured shadow addresses. -/
def privC9 : Priv :=
  { n_mac := 2, n_vlan := 0,
    mac := fun j => if j = 0 then [0, 0, 0, 0, 0, 1] else [0, 0, 0, 0, 0, 2],
    mac_configured := fun _ => false, vlan_enabled := fun _ => false,
    hash_rxqs := [], started := false, vf := false,
    promisc := false, allmulti := false }

/-- C9, counterexample: `add(0, a)` followed by `remove(0)` does *not*
restore the per-slot address bytes: `remove` only clears the configured
bit (mlx5_mac.c:189) and leaves the bytes written by `add` in place, so
slot 0 now reads `a` instead of its prior bytes. -/
theorem c9_roundtrip_counterexample :
    (priv_mac_addr_del
        (priv_mac_addr_add privC9 0 [0, 0, 0, 0, 0, 9]
          (fun _ => true) 0).2.1 0).mac 0 ≠ privC9.mac 0 := by decide

/-! ### Canonical per-queue state

The driver invariant (spec §3) ties per-queue rule state to the shadow
table: on a clean queue, `hash_rxq_mac_addrs_add` installs exactly one
flow per configured MAC index and enabled VLAN (or one VLAN-less flow at
slot 0 when no VLAN filter is enabled).  `canonQ` is that state. -/

/-- Whether any VLAN filter entry is enabled. -/
def anyVlanEnabled (p : Priv) : Bool := (List.range p.n_vlan).any p.vlan_enabled

/-- The VLAN slots a configured MAC index occupies in `mac_flow`. -/
def vlanHit (p : Priv) (v : Nat) : Bool :=
  if anyVlanEnabled p then decide (v < p.n_vlan) && p.vlan_enabled v
  else v == 0

/-- The per-queue configured bit matching the shadow table. -/
def canonBit (p : Priv) (i : Nat) : Bool :=
  decide (i < p.n_mac) && p.mac_configured i

/-- The per-queue flow-presence table matching the shadow table. -/
def canonFlow (p : Priv) (i v : Nat) : Bool := canonBit p i && vlanHit p v

/-- The canonical queue state for shadow table `p` (no broad-match
rules installed). -/
def canonQ (p : Priv) : HashRxq :=
  { mac_flow := canonFlow p, mac_configured := canonBit p,
    promisc_flow := false, allmulti_flow := false }

/-- A queue with no narrow rules and no broad rules. -/
def clearedQ : HashRxq :=
  { mac_flow := fun _ _ => false, mac_configured := fun _ => false,
    promisc_flow := false, allmulti_flow := false }

/-- The hardware accepts every flow-creation call from counter `c` on. -/
def hwOk (hw : Nat → Bool) (c : Nat) : Prop := ∀ d, c ≤ d → hw d = true

theorem hwOk_mono {hw : Nat → Bool} {c c' : Nat} (h : hwOk hw c)
    (hle : c ≤ c') : hwOk hw c' := fun d hd => h d (Nat.le_trans hle hd)

/-- `delVlanLoop` clears exactly the enabled VLAN slots of row
`mi`, counts the enabled VLANs, and touches nothing else. -/
theorem delVlanLoop_spec (p : Priv) (mi : Nat) :
    ∀ (L : List Nat) (q : HashRxq),
      (∀ i v, (delVlanLoop p mi q L).1.mac_flow i v =
        if i = mi ∧ v ∈ L ∧ p.vlan_enabled v = true then false
        else q.mac_flow i v)
      ∧ (delVlanLoop p mi q L).1.mac_configured = q.mac_configured
      ∧ (delVlanLoop p mi q L).1.promisc_flow = q.promisc_flow
      ∧ (delVlanLoop p mi q L).1.allmulti_flow = q.allmulti_flow
      ∧ (delVlanLoop p mi q L).2 = L.countP (fun v => p.vlan_enabled v) := by
  intro L
  induction L with
  | nil =>
      intro q
      refine ⟨fun i v => ?_, rfl, rfl, rfl, rfl⟩
      simp [delVlanLoop]
  | cons v rest ih =>
      intro q
      by_cases hv : p.vlan_enabled v = true
      · have heq : delVlanLoop p mi q (v :: rest) =
            ((delVlanLoop p mi (hash_rxq_del_flow q mi v) rest).1,
             (delVlanLoop p mi (hash_rxq_del_flow q mi v) rest).2 + 1) := by
          simp [delVlanLoop, hv]
        obtain ⟨hf, hb, hp2, ha, hc⟩ := ih (hash_rxq_del_flow q mi v)
        refine ⟨fun i w => ?_, ?_, ?_, ?_, ?_⟩
        · rw [heq]
          show (delVlanLoop p mi (hash_rxq_del_flow q mi v) rest).1.mac_flow i w = _
          rw [hf i w]
          show (if i = mi ∧ w ∈ rest ∧ p.vlan_enabled w = true then false
              else if i = mi ∧ w = v then false else q.mac_flow i w) = _
          by_cases hi : i = mi
          · by_cases hen : p.vlan_enabled w = true
            · by_cases hwv : w = v
              · simp [hi, hen, hwv, hv, List.mem_cons]
              · simp [hi, hen, hwv, hv, List.mem_cons]
            · have hwv : ¬ w = v := fun h => hen (by rw [h]; exact hv)
              simp [hi, hen, hwv]
          · simp [hi]
        · rw [heq]
          show (delVlanLoop p mi (hash_rxq_del_flow q mi v) rest).1.mac_configured = _
          rw [hb]
          rfl
        · rw [heq]
          show (delVlanLoop p mi (hash_rxq_del_flow q mi v) rest).1.promisc_flow = _
          rw [hp2]
          rfl
        · rw [heq]
          show (delVlanLoop p mi (hash_rxq_del_flow q mi v) rest).1.allmulti_flow = _
          rw [ha]
          rfl
        · rw [heq]
          show (delVlanLoop p mi (hash_rxq_del_flow q mi v) rest).2 + 1 = _
          rw [hc, List.countP_cons]
          simp [hv]
      · have heq : delVlanLoop p mi q (v :: rest) = delVlanLoop p mi q rest := by
          simp [delVlanLoop, hv]
        obtain ⟨hf, hb, hp2, ha, hc⟩ := ih q
        refine ⟨fun i w => ?_, ?_, ?_, ?_, ?_⟩
        · rw [heq, hf i w]
          by_cases hcond : i = mi ∧ w ∈ rest ∧ p.vlan_enabled w = true
          · rw [if_pos hcond,
              if_pos ⟨hcond.1, List.mem_cons_of_mem v hcond.2.1, hcond.2.2⟩]
          · rw [if_neg hcond, if_neg (by
              rintro ⟨hi, hmem, hen⟩
              rcases List.mem_cons.mp hmem with h | h
              · subst h; exact hv hen
              · exact hcond ⟨hi, h, hen⟩)]
        · rw [heq, hb]
        · rw [heq, hp2]
        · rw [heq, ha]
        · rw [heq, hc, List.countP_cons]
          simp [hv]

/-- No VLAN filter enabled if and only if the enabled count over the
filter table is zero. -/
theorem countP_vlan_eq_zero_iff (p : Priv) :
    (List.range p.n_vlan).countP (fun v => p.vlan_enabled v) = 0
      ↔ anyVlanEnabled p = false := by
  rw [List.countP_eq_zero]
  unfold anyVlanEnabled
  constructor
  · intro h
    rw [← Bool.not_eq_true, List.any_eq_true]
    rintro ⟨v, hv, hen⟩
    exact absurd hen (by simpa using h v hv)
  · intro h v hv
    rw [← Bool.not_eq_true, List.any_eq_true] at h
    simpa using fun hen => h ⟨v, hv, hen⟩

/-- When no VLAN filter entry is enabled, a configured MAC occupies only
VLAN slot 0. -/
theorem vlanHit_of_none (p : Priv) (h : anyVlanEnabled p = false) (v : Nat) :
    vlanHit p v = (v == 0) := by
  unfold vlanHit
  rw [h]
  simp

/-- When some VLAN filter entry is enabled, `vlanHit` is exactly the
in-range enabled test. -/
theorem vlanHit_iff_mem (p : Priv) (h : anyVlanEnabled p = true) (v : Nat) :
    vlanHit p v = true ↔ v ∈ List.range p.n_vlan ∧ p.vlan_enabled v = true := by
  unfold vlanHit
  rw [if_pos h]
  simp [List.mem_range]

/-- If no VLAN entry is enabled, the in-range enabled test is
everywhere false. -/
theorem no_enabled_of_any_false (p : Priv) (h : anyVlanEnabled p = false)
    (v : Nat) (hv : v ∈ List.range p.n_vlan) : ¬ p.vlan_enabled v = true := by
  intro hen
  unfold anyVlanEnabled at h
  rw [← Bool.not_eq_true, List.any_eq_true] at h
  exact h ⟨v, hv, hen⟩

/-- `hash_rxq_mac_addr_del` clears exactly the `vlanHit` slots of row
`mi` (when that row is configured), clears the row's configured bit, and
touches nothing else. -/
theorem hash_rxq_mac_addr_del_spec (p : Priv) (q : HashRxq) (mi : Nat) :
    (∀ i v, (hash_rxq_mac_addr_del p q mi).mac_flow i v =
      if q.mac_configured mi = true ∧ i = mi ∧ vlanHit p v = true then false
      else q.mac_flow i v)
    ∧ (∀ i, (hash_rxq_mac_addr_del p q mi).mac_configured i =
        if i = mi then false else q.mac_configured i)
    ∧ (hash_rxq_mac_addr_del p q mi).promisc_flow = q.promisc_flow
    ∧ (hash_rxq_mac_addr_del p q mi).allmulti_flow = q.allmulti_flow := by
  obtain ⟨hf, hb, hp2, ha, hc⟩ := delVlanLoop_spec p mi (List.range p.n_vlan) q
  by_cases hcfg : q.mac_configured mi = true
  · have heq : hash_rxq_mac_addr_del p q mi =
        setQBit (if (delVlanLoop p mi q (List.range p.n_vlan)).2 = 0
          then hash_rxq_del_flow
            (delVlanLoop p mi q (List.range p.n_vlan)).1 mi 0
          else (delVlanLoop p mi q (List.range p.n_vlan)).1) mi false := by
      unfold hash_rxq_mac_addr_del
      rw [if_neg (by simp [hcfg])]
    rw [heq]
    by_cases hz : (delVlanLoop p mi q (List.range p.n_vlan)).2 = 0
    · have hany : anyVlanEnabled p = false := by
        rw [← countP_vlan_eq_zero_iff p, ← hc]; exact hz
      rw [if_pos hz]
      refine ⟨fun i v => ?_, fun i => ?_, ?_, ?_⟩
      · show (if i = mi ∧ v = 0 then false
            else (delVlanLoop p mi q (List.range p.n_vlan)).1.mac_flow i v) = _
        rw [hf i v, vlanHit_of_none p hany v]
        have hrow : ¬ (i = mi ∧ v ∈ List.range p.n_vlan ∧ p.vlan_enabled v = true) := by
          rintro ⟨-, hmem, hen⟩
          exact no_enabled_of_any_false p hany v hmem hen
        rw [if_neg hrow]
        by_cases hcond : i = mi ∧ v = 0
        · rw [if_pos hcond, if_pos ⟨hcfg, hcond.1, by simp [hcond.2]⟩]
        · rw [if_neg hcond, if_neg (by
            rintro ⟨-, hi, hv⟩
            exact hcond ⟨hi, by simpa using hv⟩)]
      · show (if i = mi then false else _) = _
        by_cases hi : i = mi
        · rw [if_pos hi, if_pos hi]
        · rw [if_neg hi, if_neg hi]
          show (delVlanLoop p mi q (List.range p.n_vlan)).1.mac_configured i = _
          rw [hb]
      · show (delVlanLoop p mi q (List.range p.n_vlan)).1.promisc_flow = _
        rw [hp2]
      · show (delVlanLoop p mi q (List.range p.n_vlan)).1.allmulti_flow = _
        rw [ha]
    · have hany : anyVlanEnabled p = true := by
        rcases Bool.eq_false_or_eq_true (anyVlanEnabled p) with h | h
        · exact h
        · exact absurd (by rw [hc, countP_vlan_eq_zero_iff p]; exact h) hz
      rw [if_neg hz]
      refine ⟨fun i v => ?_, fun i => ?_, ?_, ?_⟩
      · show (delVlanLoop p mi q (List.range p.n_vlan)).1.mac_flow i v = _
        rw [hf i v]
        by_cases hcond : i = mi ∧ v ∈ List.range p.n_vlan ∧ p.vlan_enabled v = true
        · rw [if_pos hcond,
            if_pos ⟨hcfg, hcond.1, (vlanHit_iff_mem p hany v).mpr hcond.2⟩]
        · rw [if_neg hcond, if_neg (by
            rintro ⟨-, hi, hv⟩
            exact hcond ⟨hi, (vlanHit_iff_mem p hany v).mp hv⟩)]
      · show (if i = mi then false else _) = _
        by_cases hi : i = mi
        · rw [if_pos hi, if_pos hi]
        · rw [if_neg hi, if_neg hi, hb]
      · rw [show (setQBit (delVlanLoop p mi q (List.range p.n_vlan)).1 mi
            false).promisc_flow =
          (delVlanLoop p mi q (List.range p.n_vlan)).1.promisc_flow from rfl, hp2]
      · rw [show (setQBit (delVlanLoop p mi q (List.range p.n_vlan)).1 mi
            false).allmulti_flow =
          (delVlanLoop p mi q (List.range p.n_vlan)).1.allmulti_flow from rfl, ha]
  · have heq : hash_rxq_mac_addr_del p q mi = q := by
      unfold hash_rxq_mac_addr_del
      rw [if_pos (by simpa using hcfg)]
    rw [heq]
    refine ⟨fun i v => ?_, fun i => ?_, rfl, rfl⟩
    · rw [if_neg (by tauto)]
    · by_cases hi : i = mi
      · subst hi
        rw [if_pos rfl, ← Bool.not_eq_true]
        exact fun h => hcfg h
      · rw [if_neg hi]

/-- `addVlanLoop` under an accepting hardware oracle: succeeds, sets
exactly the enabled VLAN slots of row `mi`, counts the enabled VLANs,
and touches nothing else. -/
theorem addVlanLoop_spec (p : Priv) (mi : Nat) (hw : Nat → Bool) :
    ∀ (L : List Nat) (q : HashRxq) (ctr : Nat), hwOk hw ctr →
      (addVlanLoop p mi hw q ctr L).1 = 0
      ∧ (∀ i v, (addVlanLoop p mi hw q ctr L).2.1.mac_flow i v =
          if i = mi ∧ v ∈ L ∧ p.vlan_enabled v = true then true
          else q.mac_flow i v)
      ∧ (addVlanLoop p mi hw q ctr L).2.1.mac_configured = q.mac_configured
      ∧ (addVlanLoop p mi hw q ctr L).2.1.promisc_flow = q.promisc_flow
      ∧ (addVlanLoop p mi hw q ctr L).2.1.allmulti_flow = q.allmulti_flow
      ∧ ctr ≤ (addVlanLoop p mi hw q ctr L).2.2.1
      ∧ (addVlanLoop p mi hw q ctr L).2.2.2
          = L.countP (fun v => p.vlan_enabled v) := by
  intro L
  induction L with
  | nil =>
      intro q ctr _
      exact ⟨rfl, fun i v => by simp [addVlanLoop], rfl, rfl, rfl,
        Nat.le_refl _, by simp [addVlanLoop]⟩
  | cons v rest ih =>
      intro q ctr hok
      by_cases hv : p.vlan_enabled v = true
      · have hhw : hw ctr = true := hok ctr (Nat.le_refl _)
        obtain ⟨ihr, ihf, ihb, ihp, iha, ihc, ihvl⟩ :=
          ih { q with mac_flow := fun i w =>
                if i = mi ∧ w = v then true else q.mac_flow i w }
            (ctr + 1) (hwOk_mono hok (Nat.le_succ _))
        have heq : addVlanLoop p mi hw q ctr (v :: rest) =
            (0, (addVlanLoop p mi hw
                { q with mac_flow := fun i w =>
                    if i = mi ∧ w = v then true else q.mac_flow i w }
                (ctr + 1) rest).2.1,
              (addVlanLoop p mi hw
                { q with mac_flow := fun i w =>
                    if i = mi ∧ w = v then true else q.mac_flow i w }
                (ctr + 1) rest).2.2.1,
              (addVlanLoop p mi hw
                { q with mac_flow := fun i w =>
                    if i = mi ∧ w = v then true else q.mac_flow i w }
                (ctr + 1) rest).2.2.2 + 1) := by
          simp only [addVlanLoop, hash_rxq_add_flow, hv, hhw, ihr, if_true,
            Option.getD_some]
        rw [heq]
        refine ⟨rfl, fun i w => ?_, ?_, ?_, ?_, ?_, ?_⟩
        · simp only [ihf i w]
          show (if i = mi ∧ w ∈ rest ∧ p.vlan_enabled w = true then true
              else if i = mi ∧ w = v then true else q.mac_flow i w) = _
          by_cases hi : i = mi
          · by_cases hen : p.vlan_enabled w = true
            · by_cases hwv : w = v
              · simp [hi, hen, hwv, hv, List.mem_cons]
              · simp [hi, hen, hwv, hv, List.mem_cons]
            · have hwv : ¬ w = v := fun h => hen (by rw [h]; exact hv)
              simp [hi, hen, hwv]
          · simp [hi]
        · simp only [ihb]
        · simp only [ihp]
        · simp only [iha]
        · exact Nat.le_trans (Nat.le_succ _) ihc
        · show (addVlanLoop p mi hw
              { q with mac_flow := fun i w =>
                  if i = mi ∧ w = v then true else q.mac_flow i w }
              (ctr + 1) rest).2.2.2 + 1 = _
          rw [ihvl, List.countP_cons]
          simp [hv]
      · have heq : addVlanLoop p mi hw q ctr (v :: rest) =
            addVlanLoop p mi hw q ctr rest := by
          simp [addVlanLoop, hv]
        obtain ⟨ihr, ihf, ihb, ihp, iha, ihc, ihvl⟩ := ih q ctr hok
        rw [heq]
        refine ⟨ihr, fun i w => ?_, ihb, ihp, iha, ihc, ?_⟩
        · rw [ihf i w]
          by_cases hcond : i = mi ∧ w ∈ rest ∧ p.vlan_enabled w = true
          · rw [if_pos hcond,
              if_pos ⟨hcond.1, List.mem_cons_of_mem v hcond.2.1, hcond.2.2⟩]
          · rw [if_neg hcond, if_neg (by
              rintro ⟨hi, hmem, hen⟩
              rcases List.mem_cons.mp hmem with h | h
              · subst h; exact hv hen
              · exact hcond ⟨hi, h, hen⟩)]
        · rw [ihvl, List.countP_cons]
          simp [hv]

/-- `hash_rxq_mac_addr_add` on a queue whose bit for `mi` is clear, under
an accepting oracle: succeeds, sets exactly the `vlanHit` slots of row
`mi`, sets the row's configured bit, and touches nothing else. -/
theorem hash_rxq_mac_addr_add_spec (p : Priv) (q : HashRxq) (mi : Nat)
    (hw : Nat → Bool) (ctr : Nat) (hok : hwOk hw ctr)
    (hbit : q.mac_configured mi = false) :
    (hash_rxq_mac_addr_add p q mi hw ctr).1 = 0
    ∧ (∀ i v, (hash_rxq_mac_addr_add p q mi hw ctr).2.1.mac_flow i v =
        if i = mi ∧ vlanHit p v = true then true else q.mac_flow i v)
    ∧ (∀ i, (hash_rxq_mac_addr_add p q mi hw ctr).2.1.mac_configured i =
        if i = mi then true else q.mac_configured i)
    ∧ (hash_rxq_mac_addr_add p q mi hw ctr).2.1.promisc_flow = q.promisc_flow
    ∧ (hash_rxq_mac_addr_add p q mi hw ctr).2.1.allmulti_flow = q.allmulti_flow
    ∧ ctr ≤ (hash_rxq_mac_addr_add p q mi hw ctr).2.2 := by
  obtain ⟨hr, hf, hb, hp2, ha, hc, hvl⟩ :=
    addVlanLoop_spec p mi hw (List.range p.n_vlan) q ctr hok
  by_cases hany : anyVlanEnabled p = true
  · have hvlne : (addVlanLoop p mi hw q ctr (List.range p.n_vlan)).2.2.2 ≠ 0 := by
      rw [hvl]
      intro h0
      rw [countP_vlan_eq_zero_iff p] at h0
      rw [h0] at hany
      cases hany
    have heq : hash_rxq_mac_addr_add p q mi hw ctr =
        (0, setQBit (addVlanLoop p mi hw q ctr (List.range p.n_vlan)).2.1 mi true,
          (addVlanLoop p mi hw q ctr (List.range p.n_vlan)).2.2.1) := by
      unfold hash_rxq_mac_addr_add hash_rxq_mac_addr_add_vlans
      simp only [hbit, Bool.false_eq_true, if_false, hr, hvlne, ite_true,
        ite_false, eq_self_iff_true]
    rw [heq]
    refine ⟨rfl, fun i v => ?_, fun i => ?_, ?_, ?_, hc⟩
    · show (addVlanLoop p mi hw q ctr (List.range p.n_vlan)).2.1.mac_flow i v = _
      rw [hf i v]
      by_cases hcond : i = mi ∧ v ∈ List.range p.n_vlan ∧ p.vlan_enabled v = true
      · rw [if_pos hcond,
          if_pos ⟨hcond.1, (vlanHit_iff_mem p hany v).mpr hcond.2⟩]
      · rw [if_neg hcond, if_neg (by
          rintro ⟨hi, hhit⟩
          exact hcond ⟨hi, (vlanHit_iff_mem p hany v).mp hhit⟩)]
    · show (if i = mi then true else _) = _
      by_cases hi : i = mi
      · rw [if_pos hi, if_pos hi]
      · rw [if_neg hi, if_neg hi, hb]
    · show (addVlanLoop p mi hw q ctr (List.range p.n_vlan)).2.1.promisc_flow = _
      rw [hp2]
    · show (addVlanLoop p mi hw q ctr (List.range p.n_vlan)).2.1.allmulti_flow = _
      rw [ha]
  · have hany' : anyVlanEnabled p = false := by
      rcases Bool.eq_false_or_eq_true (anyVlanEnabled p) with h | h
      · exact absurd h hany
      · exact h
    have hvl0 : (addVlanLoop p mi hw q ctr (List.range p.n_vlan)).2.2.2 = 0 := by
      rw [hvl, countP_vlan_eq_zero_iff p]
      exact hany'
    have hhw : hw (addVlanLoop p mi hw q ctr (List.range p.n_vlan)).2.2.1 = true :=
      hok _ hc
    have heq : hash_rxq_mac_addr_add p q mi hw ctr =
        (0, setQBit
            { (addVlanLoop p mi hw q ctr (List.range p.n_vlan)).2.1 with
              mac_flow := fun i w => if i = mi ∧ w = 0 then true
                else (addVlanLoop p mi hw q ctr (List.range p.n_vlan)).2.1.mac_flow i w }
            mi true,
          (addVlanLoop p mi hw q ctr (List.range p.n_vlan)).2.2.1 + 1) := by
      unfold hash_rxq_mac_addr_add hash_rxq_mac_addr_add_vlans
      simp only [hbit, Bool.false_eq_true, if_false, hr, hvl0,
        hash_rxq_add_flow, hhw, Option.getD_none, ite_true, ite_false,
        eq_self_iff_true, if_true]
    rw [heq]
    refine ⟨rfl, fun i v => ?_, fun i => ?_, ?_, ?_,
      Nat.le_trans hc (Nat.le_succ _)⟩
    · show (if i = mi ∧ v = 0 then true
          else (addVlanLoop p mi hw q ctr (List.range p.n_vlan)).2.1.mac_flow i v) = _
      rw [hf i v, vlanHit_of_none p hany' v]
      have hrow : ¬ (i = mi ∧ v ∈ List.range p.n_vlan ∧ p.vlan_enabled v = true) := by
        rintro ⟨-, hmem, hen⟩
        exact no_enabled_of_any_false p hany' v hmem hen
      rw [if_neg hrow]
      by_cases hcond : i = mi ∧ v = 0
      · rw [if_pos hcond, if_pos ⟨hcond.1, by simp [hcond.2]⟩]
      · rw [if_neg hcond, if_neg (by
          rintro ⟨hi, hv⟩
          exact hcond ⟨hi, by simpa using hv⟩)]
    · show (if i = mi then true else _) = _
      by_cases hi : i = mi
      · rw [if_pos hi, if_pos hi]
      · rw [if_neg hi, if_neg hi]
        show (addVlanLoop p mi hw q ctr (List.range p.n_vlan)).2.1.mac_configured i = _
        rw [hb]
    · show (addVlanLoop p mi hw q ctr (List.range p.n_vlan)).2.1.promisc_flow = _
      rw [hp2]
    · show (addVlanLoop p mi hw q ctr (List.range p.n_vlan)).2.1.allmulti_flow = _
      rw [ha]

/-- Row `mi` after `hash_rxq_mac_addr_del`: the `vlanHit` slots cleared
(when the row was configured) and the configured bit cleared. -/
def rowClearQ (p : Priv) (q : HashRxq) (mi : Nat) : HashRxq :=
  { q with
    mac_flow := fun i v =>
      if q.mac_configured mi = true ∧ i = mi ∧ vlanHit p v = true then false
      else q.mac_flow i v,
    mac_configured := fun i => if i = mi then false else q.mac_configured i }

/-- Row `mi` after a successful `hash_rxq_mac_addr_add` on a queue whose
bit for `mi` was clear: the `vlanHit` slots set and the bit set. -/
def rowSetQ (p : Priv) (q : HashRxq) (mi : Nat) : HashRxq :=
  { q with
    mac_flow := fun i v =>
      if i = mi ∧ vlanHit p v = true then true else q.mac_flow i v,
    mac_configured := fun i => if i = mi then true else q.mac_configured i }

theorem hash_rxq_mac_addr_del_eq (p : Priv) (q : HashRxq) (mi : Nat) :
    hash_rxq_mac_addr_del p q mi = rowClearQ p q mi := by
  obtain ⟨hf, hb, hp2, ha⟩ := hash_rxq_mac_addr_del_spec p q mi
  ext i v
  · exact hf i v
  · exact hb i
  · exact hp2
  · exact ha

theorem hash_rxq_mac_addr_add_eq (p : Priv) (q : HashRxq) (mi : Nat)
    (hw : Nat → Bool) (ctr : Nat) (hok : hwOk hw ctr)
    (hbit : q.mac_configured mi = false) :
    (hash_rxq_mac_addr_add p q mi hw ctr).1 = 0
    ∧ (hash_rxq_mac_addr_add p q mi hw ctr).2.1 = rowSetQ p q mi
    ∧ ctr ≤ (hash_rxq_mac_addr_add p q mi hw ctr).2.2 := by
  obtain ⟨hr, hf, hb, hp2, ha, hc⟩ :=
    hash_rxq_mac_addr_add_spec p q mi hw ctr hok hbit
  refine ⟨hr, ?_, hc⟩
  ext i v
  · exact hf i v
  · exact hb i
  · exact hp2
  · exact ha

/-- `macsDelLoop` unregisters exactly the configured rows listed. -/
theorem macsDelLoop_spec (p : Priv) :
    ∀ (L : List Nat) (q : HashRxq),
      (∀ i v, (macsDelLoop p q L).mac_flow i v =
        if i ∈ L ∧ q.mac_configured i = true ∧ vlanHit p v = true then false
        else q.mac_flow i v)
      ∧ (∀ i, (macsDelLoop p q L).mac_configured i =
          if i ∈ L then false else q.mac_configured i)
      ∧ (macsDelLoop p q L).promisc_flow = q.promisc_flow
      ∧ (macsDelLoop p q L).allmulti_flow = q.allmulti_flow := by
  intro L
  induction L with
  | nil =>
      intro q
      exact ⟨fun i v => by simp [macsDelLoop], fun i => by simp [macsDelLoop],
        rfl, rfl⟩
  | cons j rest ih =>
      intro q
      have heq : macsDelLoop p q (j :: rest) =
          macsDelLoop p (hash_rxq_mac_addr_del p q j) rest := rfl
      obtain ⟨ihf, ihb, ihp, iha⟩ := ih (hash_rxq_mac_addr_del p q j)
      refine ⟨fun i v => ?_, fun i => ?_, ?_, ?_⟩
      · rw [heq, ihf i v, hash_rxq_mac_addr_del_eq p q j]
        unfold rowClearQ
        by_cases hi : i = j
        · subst hi
          simp [List.mem_cons]
        · simp only [List.mem_cons]
          by_cases hmem : i ∈ rest
          · simp [hi, hmem]
          · simp [hi, hmem]
      · rw [heq, ihb i, hash_rxq_mac_addr_del_eq p q j]
        unfold rowClearQ
        by_cases hi : i = j
        · subst hi
          simp [List.mem_cons]
        · simp only [List.mem_cons]
          by_cases hmem : i ∈ rest
          · simp [hi, hmem]
          · simp [hi, hmem]
      · rw [heq, ihp, hash_rxq_mac_addr_del_eq p q j]
        rfl
      · rw [heq, iha, hash_rxq_mac_addr_del_eq p q j]
        rfl

/-- `macsAddLoop` under an accepting oracle, over distinct indices whose
queue bits are clear: succeeds and registers exactly the listed rows that
are configured in the shadow table. -/
theorem macsAddLoop_spec (p : Priv) (hw : Nat → Bool) :
    ∀ (L : List Nat) (q : HashRxq) (ctr : Nat), hwOk hw ctr → L.Nodup →
      (∀ i, i ∈ L → q.mac_configured i = false) →
      (macsAddLoop p hw q ctr L).1 = 0
      ∧ (∀ i v, (macsAddLoop p hw q ctr L).2.1.mac_flow i v =
          if i ∈ L ∧ p.mac_configured i = true ∧ vlanHit p v = true then true
          else q.mac_flow i v)
      ∧ (∀ i, (macsAddLoop p hw q ctr L).2.1.mac_configured i =
          if i ∈ L ∧ p.mac_configured i = true then true
          else q.mac_configured i)
      ∧ (macsAddLoop p hw q ctr L).2.1.promisc_flow = q.promisc_flow
      ∧ (macsAddLoop p hw q ctr L).2.1.allmulti_flow = q.allmulti_flow
      ∧ ctr ≤ (macsAddLoop p hw q ctr L).2.2 := by
  intro L
  induction L with
  | nil =>
      intro q ctr _ _ _
      exact ⟨rfl, fun i v => by simp [macsAddLoop], fun i => by simp [macsAddLoop],
        rfl, rfl, Nat.le_refl _⟩
  | cons j rest ih =>
      intro q ctr hok hnd hclear
      by_cases hcfg : p.mac_configured j = true
      · obtain ⟨tr, tq, tc⟩ := hash_rxq_mac_addr_add_eq p q j hw ctr hok
          (hclear j (List.mem_cons_self j rest))
        obtain ⟨ihr, ihf, ihb, ihp, iha, ihc⟩ :=
          ih (hash_rxq_mac_addr_add p q j hw ctr).2.1
            (hash_rxq_mac_addr_add p q j hw ctr).2.2
            (hwOk_mono hok tc) (List.Nodup.of_cons hnd)
            (by
              intro i hi
              rw [tq]
              unfold rowSetQ
              have hij : ¬ i = j := fun h =>
                (List.nodup_cons.mp hnd).1 (h ▸ hi)
              simp only [if_neg hij]
              exact hclear i (List.mem_cons_of_mem j hi))
        have heq : macsAddLoop p hw q ctr (j :: rest) =
            (0, (macsAddLoop p hw (hash_rxq_mac_addr_add p q j hw ctr).2.1
                  (hash_rxq_mac_addr_add p q j hw ctr).2.2 rest).2.1,
              (macsAddLoop p hw (hash_rxq_mac_addr_add p q j hw ctr).2.1
                  (hash_rxq_mac_addr_add p q j hw ctr).2.2 rest).2.2) := by
          simp only [macsAddLoop, hcfg, not_true, if_false, tr, ihr, ite_true,
            ite_false, eq_self_iff_true]
        rw [heq]
        refine ⟨rfl, fun i v => ?_, fun i => ?_, ?_, ?_,
          Nat.le_trans tc ihc⟩
        · rw [ihf i v, tq]
          unfold rowSetQ
          by_cases hi : i = j
          · subst hi
            have : i ∉ rest := (List.nodup_cons.mp hnd).1
            simp [List.mem_cons, this, hcfg]
          · simp only [List.mem_cons]
            by_cases hmem : i ∈ rest
            · simp [hi, hmem]
            · simp [hi, hmem]
        · rw [ihb i, tq]
          unfold rowSetQ
          by_cases hi : i = j
          · subst hi
            have : i ∉ rest := (List.nodup_cons.mp hnd).1
            simp [List.mem_cons, this, hcfg]
          · simp only [List.mem_cons]
            by_cases hmem : i ∈ rest
            · simp [hi, hmem]
            · simp [hi, hmem]
        · rw [ihp, tq]
          rfl
        · rw [iha, tq]
          rfl
      · obtain ⟨ihr, ihf, ihb, ihp, iha, ihc⟩ := ih q ctr hok
          (List.Nodup.of_cons hnd)
          (fun i hi => hclear i (List.mem_cons_of_mem j hi))
        have heq : macsAddLoop p hw q ctr (j :: rest) =
            (0, (macsAddLoop p hw q ctr rest).2.1,
              (macsAddLoop p hw q ctr rest).2.2) := by
          simp only [macsAddLoop, hcfg, ihr, if_true, ite_true, ite_false,
            eq_self_iff_true, not_false_iff, Bool.false_eq_true,
            not_false_eq_true]
        rw [heq]
        refine ⟨rfl, fun i v => ?_, fun i => ?_, ihp, iha, ihc⟩
        · rw [ihf i v]
          by_cases hi : i = j
          · subst hi
            simp [List.mem_cons, hcfg]
          · simp [List.mem_cons, hi]
        · rw [ihb i]
          by_cases hi : i = j
          · subst hi
            simp [List.mem_cons, hcfg]
          · simp [List.mem_cons, hi]

/-- Unregistering every index from a canonical queue empties it. -/
theorem hash_rxq_mac_addrs_del_canonQ (p : Priv) :
    hash_rxq_mac_addrs_del p (canonQ p) = clearedQ := by
  obtain ⟨hf, hb, hp2, ha⟩ := macsDelLoop_spec p (List.range p.n_mac) (canonQ p)
  unfold hash_rxq_mac_addrs_del
  ext i v
  · rw [hf i v]
    show _ = (false : Bool)
    by_cases hcond : i ∈ List.range p.n_mac ∧
        (canonQ p).mac_configured i = true ∧ vlanHit p v = true
    · rw [if_pos hcond]
    · rw [if_neg hcond]
      show canonFlow p i v = false
      rcases Bool.eq_false_or_eq_true (canonFlow p i v) with h | h
      · exfalso
        apply hcond
        have h1 : canonBit p i = true ∧ vlanHit p v = true := by
          unfold canonFlow at h
          exact Bool.and_eq_true_iff.mp h
        have h2 : i < p.n_mac ∧ p.mac_configured i = true := by
          unfold canonBit at h1
          have := Bool.and_eq_true_iff.mp h1.1
          exact ⟨by simpa using this.1, this.2⟩
        exact ⟨List.mem_range.mpr h2.1, h1.1, h1.2⟩
      · exact h
  · rw [hb i]
    show _ = (false : Bool)
    by_cases hmem : i ∈ List.range p.n_mac
    · rw [if_pos hmem]
    · rw [if_neg hmem]
      show canonBit p i = false
      unfold canonBit
      rw [List.mem_range] at hmem
      simp [hmem]
  · exact hp2
  · exact ha

/-- Registering every configured index on an empty queue produces the
canonical queue. -/
theorem hash_rxq_mac_addrs_add_clearedQ (p : Priv) (hw : Nat → Bool)
    (ctr : Nat) (hok : hwOk hw ctr) :
    (hash_rxq_mac_addrs_add p clearedQ hw ctr).1 = 0
    ∧ (hash_rxq_mac_addrs_add p clearedQ hw ctr).2.1 = canonQ p
    ∧ ctr ≤ (hash_rxq_mac_addrs_add p clearedQ hw ctr).2.2 := by
  obtain ⟨hr, hf, hb, hp2, ha, hc⟩ := macsAddLoop_spec p hw (List.range p.n_mac)
    clearedQ ctr hok (List.nodup_range _) (fun i _ => rfl)
  unfold hash_rxq_mac_addrs_add
  refine ⟨hr, ?_, hc⟩
  ext i v
  · rw [hf i v]
    show _ = canonFlow p i v
    unfold canonFlow canonBit
    by_cases h1 : i < p.n_mac
    · by_cases h2 : p.mac_configured i = true
      · by_cases h3 : vlanHit p v = true
        · simp [clearedQ, List.mem_range, h1, h2, h3]
        · simp [clearedQ, List.mem_range, h1, h2, h3]
      · simp [clearedQ, List.mem_range, h1, h2]
    · simp [clearedQ, List.mem_range, h1]
  · rw [hb i]
    show _ = canonBit p i
    unfold canonBit
    by_cases h1 : i < p.n_mac
    · by_cases h2 : p.mac_configured i = true
      · simp [clearedQ, List.mem_range, h1, h2]
      · simp [clearedQ, List.mem_range, h1, h2]
    · simp [clearedQ, List.mem_range, h1]
  · exact hp2
  · exact ha

/-- Deleting a row just added restores the original queue, provided the
row was clear beforehand. -/
theorem del_rowSetQ (p : Priv) (q : HashRxq) (mi : Nat)
    (hbit : q.mac_configured mi = false)
    (hrow : ∀ v, q.mac_flow mi v = false) :
    hash_rxq_mac_addr_del p (rowSetQ p q mi) mi = q := by
  rw [hash_rxq_mac_addr_del_eq]
  unfold rowClearQ rowSetQ
  ext i v
  · show (if (if (mi = mi : Prop) then true else q.mac_configured mi) = true
          ∧ i = mi ∧ vlanHit p v = true then false
        else if i = mi ∧ vlanHit p v = true then true else q.mac_flow i v)
      = q.mac_flow i v
    by_cases hi : i = mi
    · by_cases h3 : vlanHit p v = true
      · simp only [hi, h3, if_pos rfl, and_self, and_true, true_and, if_true,
          ite_true, eq_self_iff_true]
        rw [hrow v]
      · simp [hi, h3]
    · simp [hi]
  · show (if i = mi then false
        else if i = mi then true else q.mac_configured i) = q.mac_configured i
    by_cases hi : i = mi
    · rw [if_pos hi, hi, hbit]
    · rw [if_neg hi, if_neg hi]
  · rfl
  · rfl

/-- The queue loop of `priv_mac_addr_add` under an accepting oracle, over
queues whose bit for `mi` is clear: registers row `mi` on every queue. -/
theorem privQueueAddLoop_spec (p : Priv) (mi : Nat) (hw : Nat → Bool) :
    ∀ (qs : List HashRxq) (ctr : Nat), hwOk hw ctr →
      (∀ q ∈ qs, q.mac_configured mi = false) →
      (privQueueAddLoop p mi hw qs ctr).1 = 0
      ∧ (privQueueAddLoop p mi hw qs ctr).2.1
          = qs.map (fun q => rowSetQ p q mi)
      ∧ ctr ≤ (privQueueAddLoop p mi hw qs ctr).2.2 := by
  intro qs
  induction qs with
  | nil => intro ctr _ _; exact ⟨rfl, rfl, Nat.le_refl _⟩
  | cons q rest ih =>
      intro ctr hok hcl
      obtain ⟨tr, tq, tc⟩ := hash_rxq_mac_addr_add_eq p q mi hw ctr hok
        (hcl q (List.mem_cons_self q rest))
      obtain ⟨ihr, ihq, ihc⟩ := ih (hash_rxq_mac_addr_add p q mi hw ctr).2.2
        (hwOk_mono hok tc) (fun q' h => hcl q' (List.mem_cons_of_mem q h))
      have heq : privQueueAddLoop p mi hw (q :: rest) ctr =
          (0, (hash_rxq_mac_addr_add p q mi hw ctr).2.1 ::
            (privQueueAddLoop p mi hw rest
              (hash_rxq_mac_addr_add p q mi hw ctr).2.2).2.1,
           (privQueueAddLoop p mi hw rest
              (hash_rxq_mac_addr_add p q mi hw ctr).2.2).2.2) := by
        simp only [privQueueAddLoop, tr, ihr, ite_true, eq_self_iff_true,
          if_true]
      rw [heq]
      exact ⟨rfl, by rw [List.map_cons, ihq, tq], Nat.le_trans tc ihc⟩

/-- `priv_mac_addr_del` on a configured index, written as a map over the
hash queues plus a shadow-bit clear. -/
theorem priv_mac_addr_del_eq (p : Priv) (mi : Nat)
    (hbit : p.mac_configured mi = true) :
    priv_mac_addr_del p mi =
      setPrivBit
        { p with hash_rxqs :=
            p.hash_rxqs.map (fun q => hash_rxq_mac_addr_del p q mi) }
        mi false := by
  unfold priv_mac_addr_del
  rw [if_neg (by simp [hbit])]

/-- The device state after a successful `priv_mac_addr_add` of address
`a` at a previously unconfigured slot `i`: bytes stored, shadow bit set,
and (when started) row `i` registered on every hash queue. -/
def postAddPriv (p : Priv) (i : Nat) (a : List Nat) : Priv :=
  setPrivBit
    { p with
      mac := fun j => if j = i then a else p.mac j,
      hash_rxqs := if p.started = true
        then p.hash_rxqs.map (fun q => rowSetQ p q i)
        else p.hash_rxqs } i true

/-- `priv_mac_addr_add` of a fresh address at an unconfigured slot, under
an accepting oracle: succeeds, stores the bytes, sets the shadow bit, and
(when started) registers the row on every hash queue. -/
theorem priv_mac_addr_add_spec (p : Priv) (i : Nat) (a : List Nat)
    (hw : Nat → Bool) (ctr : Nat) (hok : hwOk hw ctr)
    (hother : ∀ j, j < p.n_mac → j ≠ i → p.mac_configured j = true → p.mac j ≠ a)
    (hbit : p.mac_configured i = false)
    (hqbits : ∀ q ∈ p.hash_rxqs, q.mac_configured i = false) :
    (priv_mac_addr_add p i a hw ctr).1 = 0
    ∧ (priv_mac_addr_add p i a hw ctr).2.1 = postAddPriv p i a := by
  unfold postAddPriv
  have hno : ¬ ((List.range p.n_mac).any
      (fun j => j != i && p.mac_configured j && p.mac j == a) = true) := by
    rw [conflict_any_iff]
    rintro ⟨j, hj, hne, hcfg, hmac⟩
    exact hother j hj hne hcfg hmac
  by_cases hstart : p.started = true
  · obtain ⟨lr, lq, lc⟩ := privQueueAddLoop_spec
      { p with mac := fun j => if j = i then a else p.mac j } i hw
      p.hash_rxqs ctr hok hqbits
    rw [hstart] at lr lq
    have heq : priv_mac_addr_add p i a hw ctr =
        (0, setPrivBit
            { p with
              mac := fun j => if j = i then a else p.mac j,
              hash_rxqs := p.hash_rxqs.map (fun q =>
                rowSetQ { p with mac := fun j => if j = i then a else p.mac j }
                  q i) } i true,
          (privQueueAddLoop
            { p with mac := fun j => if j = i then a else p.mac j } i hw
            p.hash_rxqs ctr).2.2) := by
      unfold priv_mac_addr_add
      rw [if_neg hno]
      simp only [hbit, Bool.false_eq_true, if_false, hstart, not_true,
        ite_true, ite_false, eq_self_iff_true, if_true, lr, lq]
    rw [heq, hstart]
    refine ⟨rfl, ?_⟩
    simp only [ite_true, if_true, eq_self_iff_true]
    rfl
  · have hsf : p.started = false := by
      rcases Bool.eq_false_or_eq_true p.started with h | h
      · exact absurd h hstart
      · exact h
    have heq : priv_mac_addr_add p i a hw ctr =
        (0, setPrivBit
            { p with mac := fun j => if j = i then a else p.mac j } i true,
          ctr) := by
      unfold priv_mac_addr_add
      rw [if_neg hno]
      simp only [hbit, Bool.false_eq_true, if_false, hsf, not_false_iff,
        ite_true, ite_false, eq_self_iff_true, if_true]
    rw [heq, hsf]
    refine ⟨rfl, ?_⟩
    simp only [Bool.false_eq_true, ite_false, if_false]

/-- Mapping add-then-delete of a fresh row over queues is the identity. -/
theorem map_del_rowSetQ (p : Priv) (mi : Nat) :
    ∀ (qs : List HashRxq),
      (∀ q ∈ qs, q.mac_configured mi = false ∧ ∀ v, q.mac_flow mi v = false) →
      qs.map (fun q => hash_rxq_mac_addr_del p (rowSetQ p q mi) mi) = qs := by
  intro qs
  induction qs with
  | nil => intro _; rfl
  | cons q rest ih =>
      intro h
      rw [List.map_cons,
        del_rowSetQ p q mi (h q (List.mem_cons_self q rest)).1
          (h q (List.mem_cons_self q rest)).2,
        ih (fun q' h' => h q' (List.mem_cons_of_mem q h'))]

/-- Deleting an unregistered row from queues is the identity. -/
theorem map_del_clear (p : Priv) (mi : Nat) :
    ∀ (qs : List HashRxq), (∀ q ∈ qs, q.mac_configured mi = false) →
      qs.map (fun q => hash_rxq_mac_addr_del p q mi) = qs := by
  intro qs
  induction qs with
  | nil => intro _; rfl
  | cons q rest ih =>
      intro h
      have hq : hash_rxq_mac_addr_del p q mi = q := by
        unfold hash_rxq_mac_addr_del
        rw [if_pos (by simp [h q (List.mem_cons_self q rest)])]
      rw [List.map_cons, hq, ih (fun q' h' => h q' (List.mem_cons_of_mem q h'))]

/-- C9, amended: for a valid index `i` whose slot is initially
unconfigured, an address `a` held by no other configured slot, and a
hardware oracle that accepts the new rules, `add(i, a)` followed by
`remove(i)` restores the configured flags of every slot, the hash-queue
rule state, and the address bytes of every slot **except** `i`: slot `i`
retains the bytes `a` written by the add (the remove clears only the
configured bit).  This is the clause the counterexample forces; the rest
of the round-trip claim holds. -/
theorem c9_roundtrip_amended (p : Priv) (i : Nat) (a : List Nat)
    (hw : Nat → Bool) (ctr : Nat) (hok : hwOk hw ctr)
    (hbit : p.mac_configured i = false)
    (hother : ∀ j, j < p.n_mac → j ≠ i → p.mac_configured j = true →
      p.mac j ≠ a)
    (hq : ∀ q ∈ p.hash_rxqs,
      q.mac_configured i = false ∧ ∀ v, q.mac_flow i v = false) :
    (priv_mac_addr_add p i a hw ctr).1 = 0
    ∧ priv_mac_addr_del (priv_mac_addr_add p i a hw ctr).2.1 i
        = { p with mac := fun j => if j = i then a else p.mac j } := by
  obtain ⟨hr, hpriv⟩ := priv_mac_addr_add_spec p i a hw ctr hok hother hbit
    (fun q h => (hq q h).1)
  refine ⟨hr, ?_⟩
  rw [hpriv]
  rw [priv_mac_addr_del_eq (postAddPriv p i a) i
    (by simp [postAddPriv, setPrivBit])]
  have hqs : (postAddPriv p i a).hash_rxqs.map
      (fun q => hash_rxq_mac_addr_del (postAddPriv p i a) q i)
        = p.hash_rxqs := by
    by_cases hstart : p.started = true
    · have h1 : (postAddPriv p i a).hash_rxqs
          = p.hash_rxqs.map (fun q => rowSetQ p q i) := by
        show (if p.started = true
            then p.hash_rxqs.map (fun q => rowSetQ p q i)
            else p.hash_rxqs) = _
        rw [if_pos hstart]
      rw [h1, List.map_map]
      exact map_del_rowSetQ (postAddPriv p i a) i p.hash_rxqs hq
    · have h1 : (postAddPriv p i a).hash_rxqs = p.hash_rxqs := by
        show (if p.started = true
            then p.hash_rxqs.map (fun q => rowSetQ p q i)
            else p.hash_rxqs) = _
        rw [if_neg hstart]
      rw [h1]
      exact map_del_clear (postAddPriv p i a) i p.hash_rxqs
        (fun q h => (hq q h).1)
  refine Priv.ext rfl rfl rfl ?_ rfl ?_ rfl rfl rfl rfl
  · funext j
    show (if j = i then false else if j = i then true else p.mac_configured j)
      = p.mac_configured j
    by_cases hj : j = i
    · rw [if_pos hj, hj, hbit]
    · rw [if_neg hj, if_neg hj]
  · show (postAddPriv p i a).hash_rxqs.map
        (fun q => hash_rxq_mac_addr_del (postAddPriv p i a) q i)
      = p.hash_rxqs
    exact hqs

/-- A started device with one configured slot (index 1) and one hash
queue carrying exactly that rule. -/
def privC9s : Priv :=
  { n_mac := 2, n_vlan := 0,
    mac := fun j => if j = 1 then [9, 9, 9, 9, 9, 9] else [0, 0, 0, 0, 0, 0],
    mac_configured := fun j => j == 1, vlan_enabled := fun _ => false,
    hash_rxqs := [{ mac_flow := fun j v => j == 1 && v == 0,
                    mac_configured := fun j => j == 1,
                    promisc_flow := false, allmulti_flow := false }],
    started := true, vf := false, promisc := false, allmulti := false }

/-- C9, witness: the amended round trip at a concrete started device. -/
theorem c9_roundtrip_amended_witness :
    (priv_mac_addr_add privC9s 0 [1, 2, 3, 4, 5, 6] (fun _ => true) 0).1 = 0 :=
  (c9_roundtrip_amended privC9s 0 [1, 2, 3, 4, 5, 6] (fun _ => true) 0
    (fun _ _ => rfl) (by decide) (by decide)
    (by
      intro q hmem
      simp only [privC9s, List.mem_singleton] at hmem
      subst hmem
      exact ⟨rfl, fun v => rfl⟩)).1

/-- The MAC row machinery never touches the broad-match flow slots:
`addVlanLoop`, unconditionally. -/
theorem addVlanLoop_frame (p : Priv) (mi : Nat) (hw : Nat → Bool) :
    ∀ (L : List Nat) (q : HashRxq) (ctr : Nat),
      (addVlanLoop p mi hw q ctr L).2.1.promisc_flow = q.promisc_flow
      ∧ (addVlanLoop p mi hw q ctr L).2.1.allmulti_flow = q.allmulti_flow := by
  intro L
  induction L with
  | nil => intro q ctr; exact ⟨rfl, rfl⟩
  | cons v rest ih =>
      intro q ctr
      by_cases hv : p.vlan_enabled v = true
      · by_cases hhw : hw ctr = true
        · simp only [addVlanLoop, hash_rxq_add_flow, hv, hhw, if_true,
            ite_true, Option.getD_some, eq_self_iff_true]
          constructor
          · split
            · exact (ih _ _).1
            · exact (ih _ _).1
          · split
            · exact (ih _ _).2
            · exact (ih _ _).2
        · simp only [addVlanLoop, hash_rxq_add_flow, hv, hhw, if_true,
            ite_true, ite_false, Option.getD_some, eq_self_iff_true, EINVAL]
          exact ⟨rfl, rfl⟩
      · simp only [addVlanLoop, hv]
        exact ih q ctr

/-- The MAC row machinery never touches the broad-match flow slots:
the VLAN-loop core of `hash_rxq_mac_addr_add`, unconditionally. -/
theorem mac_addr_add_vlans_frame (p : Priv) (q0 : HashRxq) (mi : Nat)
    (hw : Nat → Bool) (ctr : Nat) :
    (hash_rxq_mac_addr_add_vlans p q0 mi hw ctr).2.1.promisc_flow
        = q0.promisc_flow
    ∧ (hash_rxq_mac_addr_add_vlans p q0 mi hw ctr).2.1.allmulti_flow
        = q0.allmulti_flow := by
  obtain ⟨hvp, hva⟩ := addVlanLoop_frame p mi hw (List.range p.n_vlan) q0 ctr
  unfold hash_rxq_mac_addr_add_vlans
  by_cases h1 : (addVlanLoop p mi hw q0 ctr (List.range p.n_vlan)).1 = 0
  · by_cases h2 : (addVlanLoop p mi hw q0 ctr (List.range p.n_vlan)).2.2.2 = 0
    · by_cases h3 :
          hw (addVlanLoop p mi hw q0 ctr (List.range p.n_vlan)).2.2.1 = true
      · simp only [h1, h2, hash_rxq_add_flow, h3, if_true, ite_true,
          Option.getD_none, eq_self_iff_true]
        exact ⟨hvp, hva⟩
      · simp only [h1, h2, hash_rxq_add_flow, h3, if_true, ite_true,
          ite_false, if_false, eq_self_iff_true, EINVAL, Option.getD_none]
        exact ⟨hvp, hva⟩
    · simp only [h1, h2, if_true, ite_true, ite_false, if_false,
        eq_self_iff_true]
      exact ⟨hvp, hva⟩
  · simp only [h1, ite_false, if_false]
    exact ⟨hvp, hva⟩

/-- The MAC row machinery never touches the broad-match flow slots:
`hash_rxq_mac_addr_add`, unconditionally. -/
theorem hash_rxq_mac_addr_add_frame (p : Priv) (q : HashRxq) (mi : Nat)
    (hw : Nat → Bool) (ctr : Nat) :
    (hash_rxq_mac_addr_add p q mi hw ctr).2.1.promisc_flow = q.promisc_flow
    ∧ (hash_rxq_mac_addr_add p q mi hw ctr).2.1.allmulti_flow
        = q.allmulti_flow := by
  unfold hash_rxq_mac_addr_add
  by_cases hc : q.mac_configured mi = true
  · simp only [hc, if_true, ite_true, eq_self_iff_true]
    constructor
    · rw [(mac_addr_add_vlans_frame p (hash_rxq_mac_addr_del p q mi)
          mi hw ctr).1,
        (hash_rxq_mac_addr_del_spec p q mi).2.2.1]
    · rw [(mac_addr_add_vlans_frame p (hash_rxq_mac_addr_del p q mi)
          mi hw ctr).2,
        (hash_rxq_mac_addr_del_spec p q mi).2.2.2]
  · simp only [hc, if_false, ite_false]
    exact mac_addr_add_vlans_frame p q mi hw ctr

/-- The MAC row machinery never touches the broad-match flow slots:
`macsAddLoop` and hence `hash_rxq_mac_addrs_add`, unconditionally. -/
theorem macsAddLoop_frame (p : Priv) (hw : Nat → Bool) :
    ∀ (L : List Nat) (q : HashRxq) (ctr : Nat),
      (macsAddLoop p hw q ctr L).2.1.promisc_flow = q.promisc_flow
      ∧ (macsAddLoop p hw q ctr L).2.1.allmulti_flow = q.allmulti_flow := by
  intro L
  induction L with
  | nil => intro q ctr; exact ⟨rfl, rfl⟩
  | cons j rest ih =>
      intro q ctr
      unfold macsAddLoop
      by_cases hc : p.mac_configured j = true
      · simp only [hc, not_true, if_false, ite_false]
        by_cases h1 : (hash_rxq_mac_addr_add p q j hw ctr).1 = 0
        · simp only [h1, if_true, ite_true, eq_self_iff_true]
          by_cases h2 : (macsAddLoop p hw
              (hash_rxq_mac_addr_add p q j hw ctr).2.1
              (hash_rxq_mac_addr_add p q j hw ctr).2.2 rest).1 = 0
          · simp only [h2, if_true, ite_true, eq_self_iff_true]
            constructor
            · rw [(ih _ _).1, (hash_rxq_mac_addr_add_frame p q j hw ctr).1]
            · rw [(ih _ _).2, (hash_rxq_mac_addr_add_frame p q j hw ctr).2]
          · simp only [h2, if_false, ite_false]
            constructor
            · rw [(hash_rxq_mac_addr_del_spec p _ j).2.2.1, (ih _ _).1,
                (hash_rxq_mac_addr_add_frame p q j hw ctr).1]
            · rw [(hash_rxq_mac_addr_del_spec p _ j).2.2.2, (ih _ _).2,
                (hash_rxq_mac_addr_add_frame p q j hw ctr).2]
        · simp only [h1, if_false, ite_false]
          exact hash_rxq_mac_addr_add_frame p q j hw ctr
      · simp only [hc, not_false_iff, if_true, ite_true, Bool.false_eq_true,
          not_false_eq_true]
        by_cases h2 : (macsAddLoop p hw q ctr rest).1 = 0
        · simp only [h2, if_true, ite_true, eq_self_iff_true]
          exact ih q ctr
        · simp only [h2, if_false, ite_false]
          constructor
          · rw [(hash_rxq_mac_addr_del_spec p _ j).2.2.1, (ih _ _).1]
          · rw [(hash_rxq_mac_addr_del_spec p _ j).2.2.2, (ih _ _).2]

/-- On a virtual function, the promiscuous-enable loop reports success on
every queue, deletes the per-MAC flows, and makes no hardware call. -/
theorem promiscEnableLoopVf (p : Priv) (hw : Nat → Bool) (hvf : p.vf = true) :
    ∀ (qs : List HashRxq) (ctr : Nat),
      promiscEnableLoop p hw qs ctr
        = (0, qs.map (fun q => hash_rxq_mac_addrs_del p q), ctr) := by
  intro qs
  induction qs with
  | nil => intro ctr; rfl
  | cons q rest ih =>
      intro ctr
      have ht : hash_rxq_promiscuous_enable p
          (hash_rxq_mac_addrs_del p q) hw ctr
            = (0, hash_rxq_mac_addrs_del p q, ctr) := by
        unfold hash_rxq_promiscuous_enable
        rw [if_pos hvf]
      simp only [promiscEnableLoop, ht, ih, List.map_cons, if_true, ite_true,
        eq_self_iff_true]

/-- Deleting all MAC rows of queues leaves every `promisc_flow`
unchanged. -/
theorem map_pf_del (p : Priv) :
    ∀ (qs : List HashRxq),
      (qs.map (fun q => hash_rxq_mac_addrs_del p q)).map
          (fun q => q.promisc_flow)
        = qs.map (fun q => q.promisc_flow) := by
  intro qs
  induction qs with
  | nil => rfl
  | cons q rest ih =>
      simp only [List.map_cons, ih]
      congr 1
      exact (macsDelLoop_spec p (List.range p.n_mac) q).2.2.1

/-- On a virtual function, the promiscuous-disable loop leaves every
`promisc_flow` unchanged (destroys no broad rule). -/
theorem promiscDisableLoop_vf_pf (p : Priv) (hw : Nat → Bool)
    (hvf : p.vf = true) :
    ∀ (qs : List HashRxq) (ctr : Nat),
      (promiscDisableLoop p hw qs ctr).1.map (fun q => q.promisc_flow)
        = qs.map (fun q => q.promisc_flow) := by
  intro qs
  induction qs with
  | nil => intro ctr; rfl
  | cons q rest ih =>
      intro ctr
      have hq1 : hash_rxq_promiscuous_disable p q = q := by
        unfold hash_rxq_promiscuous_disable
        rw [if_pos hvf]
      by_cases hst : p.started = true
      · simp only [promiscDisableLoop, hq1, hst, if_true, ite_true,
          List.map_cons, eq_self_iff_true]
        rw [ih]
        congr 1
        exact (macsAddLoop_frame p hw (List.range p.n_mac) q ctr).1
      · simp only [promiscDisableLoop, hq1, hst, if_false, ite_false,
          List.map_cons, Bool.false_eq_true]
        rw [ih]

/-- C10: on a virtual function (`vf` set), the per-queue promiscuous
operations are silent no-ops — enable reports success without touching
the queue or consuming a hardware call, disable destroys nothing — and at
device level enabling still reports success on every queue and sets the
`promisc` flag while no broad-match flow is created on any queue (the
call counter is returned untouched: no `ibv_exp_create_flow` call is ever
made); disabling destroys no broad rule. -/
theorem c10_vf_noop (p : Priv) (hw : Nat → Bool) (ctr : Nat)
    (hvf : p.vf = true) :
    (∀ q, hash_rxq_promiscuous_enable p q hw ctr = (0, q, ctr))
    ∧ (∀ q, hash_rxq_promiscuous_disable p q = q)
    ∧ ((priv_promiscuous_enable p hw ctr).1 = 0
        ∧ (priv_promiscuous_enable p hw ctr).2.1.promisc = true
        ∧ (priv_promiscuous_enable p hw ctr).2.1.hash_rxqs.map
              (fun q => q.promisc_flow)
            = p.hash_rxqs.map (fun q => q.promisc_flow)
        ∧ (priv_promiscuous_enable p hw ctr).2.2 = ctr)
    ∧ (priv_promiscuous_disable p hw ctr).1.hash_rxqs.map
          (fun q => q.promisc_flow)
        = p.hash_rxqs.map (fun q => q.promisc_flow) := by
  refine ⟨?_, ?_, ?_, ?_⟩
  · intro q
    unfold hash_rxq_promiscuous_enable
    rw [if_pos hvf]
  · intro q
    unfold hash_rxq_promiscuous_disable
    rw [if_pos hvf]
  · by_cases hp : p.promisc = true
    · have heq : priv_promiscuous_enable p hw ctr = (0, p, ctr) := by
        unfold priv_promiscuous_enable
        rw [if_pos hp]
      rw [heq]
      exact ⟨rfl, hp, rfl, rfl⟩
    · have heq : priv_promiscuous_enable p hw ctr =
          (0, { p with
              hash_rxqs := p.hash_rxqs.map
                (fun q => hash_rxq_mac_addrs_del p q),
              promisc := true }, ctr) := by
        unfold priv_promiscuous_enable
        rw [if_neg hp, promiscEnableLoopVf p hw hvf p.hash_rxqs ctr]
        rfl
      rw [heq]
      exact ⟨rfl, rfl, map_pf_del p p.hash_rxqs, rfl⟩
  · by_cases hp : p.promisc = true
    · have heq : priv_promiscuous_disable p hw ctr =
          ({ p with
              hash_rxqs := (promiscDisableLoop p hw p.hash_rxqs ctr).1,
              promisc := false },
            (promiscDisableLoop p hw p.hash_rxqs ctr).2) := by
        unfold priv_promiscuous_disable
        rw [if_neg (fun h => h hp)]
      rw [heq]
      exact promiscDisableLoop_vf_pf p hw hvf p.hash_rxqs ctr
    · have heq : priv_promiscuous_disable p hw ctr = (p, ctr) := by
        unfold priv_promiscuous_disable
        rw [if_pos hp]
      rw [heq]

/-- A virtual-function device with one hash queue and one configured
MAC. -/
def privC10 : Priv :=
  { n_mac := 1, n_vlan := 0,
    mac := fun _ => [0, 1, 2, 3, 4, 5],
    mac_configured := fun j => j == 0, vlan_enabled := fun _ => false,
    hash_rxqs := [{ mac_flow := fun j v => j == 0 && v == 0,
                    mac_configured := fun j => j == 0,
                    promisc_flow := false, allmulti_flow := false }],
    started := true, vf := true, promisc := false, allmulti := false }

/-- C10, witness: enabling promiscuous mode on a concrete VF device
reports success while consuming no hardware call. -/
theorem c10_vf_noop_witness :
    (priv_promiscuous_enable privC10 (fun _ => true) 0).1 = 0
    ∧ (priv_promiscuous_enable privC10 (fun _ => true) 0).2.2 = 0 :=
  ⟨(c10_vf_noop privC10 (fun _ => true) 0 (by decide)).2.2.1.1,
   (c10_vf_noop privC10 (fun _ => true) 0 (by decide)).2.2.1.2.2.2⟩

/-- A queue carrying exactly one broad promiscuous rule and nothing
else. -/
def promOnQ : HashRxq := { clearedQ with promisc_flow := true }

theorem map_const_of_all {α : Type} (c : α) :
    ∀ (l : List α), (∀ x ∈ l, x = c) → l.map (fun _ => c) = l := by
  intro l
  induction l with
  | nil => intro _; rfl
  | cons x rest ih =>
      intro h
      rw [List.map_cons, ih (fun y hy => h y (List.mem_cons_of_mem x hy)),
        h x (List.mem_cons_self x rest)]

/-- On a physical function with canonical queues and an accepting oracle,
the promiscuous-enable loop strips every per-MAC rule, installs one broad
rule per queue, and consumes exactly one hardware call per queue. -/
theorem promiscEnableLoop_canon (p : Priv) (hw : Nat → Bool)
    (hvf : p.vf = false) :
    ∀ (qs : List HashRxq) (ctr : Nat), hwOk hw ctr →
      (∀ q ∈ qs, q = canonQ p) →
      promiscEnableLoop p hw qs ctr
        = (0, qs.map (fun _ => promOnQ), ctr + qs.length) := by
  intro qs
  induction qs with
  | nil => intro ctr _ _; rfl
  | cons q rest ih =>
      intro ctr hok hcanon
      have hdel : hash_rxq_mac_addrs_del p q = clearedQ := by
        rw [hcanon q (List.mem_cons_self q rest)]
        exact hash_rxq_mac_addrs_del_canonQ p
      have ht : hash_rxq_promiscuous_enable p
          (hash_rxq_mac_addrs_del p q) hw ctr = (0, promOnQ, ctr + 1) := by
        rw [hdel]
        unfold hash_rxq_promiscuous_enable
        rw [if_neg (by simp [hvf]), if_neg (by simp [clearedQ]),
          if_pos (hok ctr (Nat.le_refl _))]
        rfl
      have hrest := ih (ctr + 1) (hwOk_mono hok (Nat.le_succ _))
        (fun q' h => hcanon q' (List.mem_cons_of_mem q h))
      simp only [promiscEnableLoop, ht, hrest, List.map_cons,
        List.length_cons, if_true, ite_true, eq_self_iff_true]
      have harith : ctr + 1 + rest.length = ctr + (rest.length + 1) := by
        omega
      rw [harith]

/-- On a started physical function with an accepting oracle, the
promiscuous-disable loop removes the broad rule of every queue and
restores the canonical per-MAC rules. -/
theorem promiscDisableLoop_restore (p : Priv) (hw : Nat → Bool)
    (hst : p.started = true) (hvf : p.vf = false) :
    ∀ (qs : List HashRxq) (ctr : Nat), hwOk hw ctr →
      (∀ q ∈ qs, q = promOnQ) →
      (promiscDisableLoop p hw qs ctr).1 = qs.map (fun _ => canonQ p) := by
  intro qs
  induction qs with
  | nil => intro ctr _ _; rfl
  | cons q rest ih =>
      intro ctr hok hprom
      have hdis : hash_rxq_promiscuous_disable p q = clearedQ := by
        rw [hprom q (List.mem_cons_self q rest)]
        unfold hash_rxq_promiscuous_disable
        rw [if_neg (by simp [hvf]), if_neg (by simp [promOnQ, clearedQ])]
        rfl
      obtain ⟨ur, uq, uc⟩ := hash_rxq_mac_addrs_add_clearedQ p hw ctr hok
      have hrest := ih (hash_rxq_mac_addrs_add p clearedQ hw ctr).2.2
        (hwOk_mono hok uc)
        (fun q' h => hprom q' (List.mem_cons_of_mem q h))
      simp only [promiscDisableLoop, hdis, hst, if_true, ite_true,
        List.map_cons, eq_self_iff_true]
      rw [hrest, uq]

/-- When the device is not started, the promiscuous-disable loop only
removes broad rules: no per-MAC rule is recreated and no hardware call
is made. -/
theorem promiscDisableLoop_nostart (p : Priv) (hw : Nat → Bool)
    (hst : p.started = false) :
    ∀ (qs : List HashRxq) (ctr : Nat),
      promiscDisableLoop p hw qs ctr
        = (qs.map (fun q => hash_rxq_promiscuous_disable p q), ctr) := by
  intro qs
  induction qs with
  | nil => intro ctr; rfl
  | cons q rest ih =>
      intro ctr
      simp only [promiscDisableLoop, hst, Bool.false_eq_true, if_false,
        ite_false, ih, List.map_cons]

/-- `hash_rxq_promiscuous_disable` never touches the per-MAC state. -/
theorem promisc_disable_frame (p : Priv) (q : HashRxq) :
    (hash_rxq_promiscuous_disable p q).mac_flow = q.mac_flow
    ∧ (hash_rxq_promiscuous_disable p q).mac_configured
        = q.mac_configured := by
  unfold hash_rxq_promiscuous_disable
  split
  · exact ⟨rfl, rfl⟩
  · split
    · exact ⟨rfl, rfl⟩
    · exact ⟨rfl, rfl⟩

/-- `priv_promiscuous_disable` with the flag set, unfolded once. -/
theorem priv_promiscuous_disable_eq (p : Priv) (hw : Nat → Bool) (ctr : Nat)
    (hpm : p.promisc = true) :
    priv_promiscuous_disable p hw ctr
      = ({ p with
          hash_rxqs := (promiscDisableLoop p hw p.hash_rxqs ctr).1,
          promisc := false },
        (promiscDisableLoop p hw p.hash_rxqs ctr).2) := by
  unfold priv_promiscuous_disable
  rw [if_neg (fun h => h hpm)]

/-- Removing broad promiscuous rules leaves every per-MAC rule table
unchanged. -/
theorem map_mf_disable (p : Priv) :
    ∀ (qs : List HashRxq),
      (qs.map (fun q => hash_rxq_promiscuous_disable p q)).map
          (fun q => q.mac_flow)
        = qs.map (fun q => q.mac_flow) := by
  intro qs
  induction qs with
  | nil => rfl
  | cons q rest ih =>
      simp only [List.map_cons, ih]
      congr 1
      exact (promisc_disable_frame p q).1

/-- C5, amended: on a **physical-function** device (`vf` clear) that is
started, not yet promiscuous, whose queues carry exactly the canonical
per-MAC rules, and whose hardware accepts rule creation: enabling
promiscuous mode succeeds, removes every narrow per-MAC rule on every
queue and installs exactly one broad rule per queue (the single
`promisc_flow` slot); the subsequent disable restores the device
bit-for-bit; and when the device is *not* started, disabling removes
broad rules without recreating any per-MAC rule (no hardware call is
made).  The VF restriction is what the counterexample forces: on a
virtual function no broad rule is ever installed. -/
theorem c5_promisc_roundtrip (p : Priv) (hw : Nat → Bool)
    (hvf : p.vf = false) (hpm : p.promisc = false) (hst : p.started = true)
    (hok : hwOk hw 0) (hcanon : ∀ q ∈ p.hash_rxqs, q = canonQ p) :
    (priv_promiscuous_enable p hw 0).1 = 0
    ∧ (priv_promiscuous_enable p hw 0).2.1.promisc = true
    ∧ (∀ q ∈ (priv_promiscuous_enable p hw 0).2.1.hash_rxqs,
        q.promisc_flow = true ∧ (∀ i v, q.mac_flow i v = false))
    ∧ (priv_promiscuous_disable (priv_promiscuous_enable p hw 0).2.1 hw
          (priv_promiscuous_enable p hw 0).2.2).1 = p
    ∧ (∀ (p2 : Priv) (hw2 : Nat → Bool) (c2 : Nat),
        p2.promisc = true → p2.started = false →
        (priv_promiscuous_disable p2 hw2 c2).1.hash_rxqs.map
            (fun q => q.mac_flow)
          = p2.hash_rxqs.map (fun q => q.mac_flow)
        ∧ (priv_promiscuous_disable p2 hw2 c2).2 = c2) := by
  have henable : priv_promiscuous_enable p hw 0 =
      (0, { p with
          hash_rxqs := p.hash_rxqs.map (fun _ => promOnQ),
          promisc := true }, 0 + p.hash_rxqs.length) := by
    unfold priv_promiscuous_enable
    rw [if_neg (by simp [hpm]), promiscEnableLoop_canon p hw hvf
      p.hash_rxqs 0 hok hcanon]
    rfl
  refine ⟨?_, ?_, ?_, ?_, ?_⟩
  · rw [henable]
  · rw [henable]
  · rw [henable]
    intro q hq
    have hq' : q ∈ p.hash_rxqs.map (fun _ => promOnQ) := hq
    rcases List.mem_map.mp hq' with ⟨a, -, ha⟩
    rw [← ha]
    exact ⟨rfl, fun i v => rfl⟩
  · rw [henable]
    rw [priv_promiscuous_disable_eq _ hw _ rfl]
    refine Priv.ext rfl rfl rfl rfl rfl ?_ rfl rfl ?_ rfl
    · rw [promiscDisableLoop_restore
        { p with
          hash_rxqs := p.hash_rxqs.map (fun _ => promOnQ),
          promisc := true } hw hst hvf
        (p.hash_rxqs.map (fun _ => promOnQ))
        (0 + p.hash_rxqs.length)
        (hwOk_mono hok (Nat.zero_le _))
        (fun q hq => by
          rcases List.mem_map.mp hq with ⟨a, -, ha⟩
          exact ha.symm)]
      show (p.hash_rxqs.map (fun _ => promOnQ)).map (fun _ => canonQ p)
        = p.hash_rxqs
      rw [List.map_map]
      exact map_const_of_all (canonQ p) p.hash_rxqs hcanon
    · exact hpm.symm
  · intro p2 hw2 c2 h1 h2
    rw [priv_promiscuous_disable_eq p2 hw2 c2 h1,
      promiscDisableLoop_nostart p2 hw2 h2 p2.hash_rxqs c2]
    exact ⟨map_mf_disable p2 p2.hash_rxqs, rfl⟩

/-- A virtual-function device, started, with one configured MAC and one
canonical hash queue. -/
def privC5vf : Priv :=
  { n_mac := 1, n_vlan := 0,
    mac := fun _ => [0, 1, 2, 3, 4, 5],
    mac_configured := fun j => j == 0, vlan_enabled := fun _ => false,
    hash_rxqs := [{ mac_flow := fun j v => j == 0 && v == 0,
                    mac_configured := fun j => j == 0,
                    promisc_flow := false, allmulti_flow := false }],
    started := true, vf := true, promisc := false, allmulti := false }

/-- C5, counterexample: on a virtual-function device with a configured
MAC, enabling promiscuous mode reports success and sets the device flag,
yet installs **zero** broad-match rules on the queue — falsifying
"installs exactly one broad rule per queue" as universally stated. -/
theorem c5_promisc_counterexample :
    (priv_promiscuous_enable privC5vf (fun _ => true) 0).1 = 0
    ∧ (priv_promiscuous_enable privC5vf (fun _ => true) 0).2.1.promisc = true
    ∧ (priv_promiscuous_enable privC5vf (fun _ => true) 0).2.1.hash_rxqs.map
        (fun q => q.promisc_flow) = [false] := by decide

/-- A physical-function base device for the C5 witness (no queues). -/
def privC5base : Priv :=
  { n_mac := 1, n_vlan := 0,
    mac := fun _ => [0, 1, 2, 3, 4, 5],
    mac_configured := fun j => j == 0, vlan_enabled := fun _ => false,
    hash_rxqs := [], started := true, vf := false,
    promisc := false, allmulti := false }

/-- The C5 witness device: one canonical hash queue. -/
def privC5 : Priv :=
  { privC5base with hash_rxqs := [canonQ privC5base] }

/-- C5, witness: the amended round trip at a concrete device. -/
theorem c5_promisc_roundtrip_witness :
    (priv_promiscuous_enable privC5 (fun _ => true) 0).1 = 0
    ∧ (priv_promiscuous_disable
        (priv_promiscuous_enable privC5 (fun _ => true) 0).2.1
        (fun _ => true)
        (priv_promiscuous_enable privC5 (fun _ => true) 0).2.2).1 = privC5 :=
  ⟨(c5_promisc_roundtrip privC5 (fun _ => true) rfl rfl rfl
      (fun _ _ => rfl)
      (fun q hq => by
        simp only [privC5, List.mem_singleton] at hq
        subst hq
        rfl)).1,
   (c5_promisc_roundtrip privC5 (fun _ => true) rfl rfl rfl
      (fun _ _ => rfl)
      (fun q hq => by
        simp only [privC5, List.mem_singleton] at hq
        subst hq
        rfl)).2.2.2.1⟩

theorem EINVAL_ne_zero : ¬ (EINVAL = 0) := by decide

/-- Failure injection for the promiscuous-enable loop: the hardware
accepts the first `k` creations, rejects the next one, then accepts again
(so the rollback can re-create flows).  The loop returns `EINVAL`, every
queue before `k` is rolled back to its canonical state, every queue after
`k` is untouched, and queue `k` is left with its per-MAC rules deleted. -/
theorem promiscEnableLoop_inject (p : Priv) (hw : Nat → Bool)
    (hvf : p.vf = false) (hst : p.started = true) :
    ∀ (qs : List HashRxq) (ctr k : Nat), k < qs.length →
      (∀ q ∈ qs, q = canonQ p) →
      (∀ j, j < k → hw (ctr + j) = true) → hw (ctr + k) = false →
      hwOk hw (ctr + k + 1) →
      ∃ c', promiscEnableLoop p hw qs ctr
          = (EINVAL, qs.map (fun _ => canonQ p) |>.set k clearedQ, c')
        ∧ ctr + k + 1 ≤ c' := by
  intro qs
  induction qs with
  | nil =>
      intro ctr k hk
      exact absurd hk (by simp)
  | cons q rest ih =>
      intro ctr k hk hcanon hfwd hfail hok
      have hdel : hash_rxq_mac_addrs_del p q = clearedQ := by
        rw [hcanon q (List.mem_cons_self q rest)]
        exact hash_rxq_mac_addrs_del_canonQ p
      cases k with
      | zero =>
          have hfail0 : hw ctr = false := by
            rwa [Nat.add_zero] at hfail
          have ht : hash_rxq_promiscuous_enable p
              (hash_rxq_mac_addrs_del p q) hw ctr
              = (EINVAL, clearedQ, ctr + 1) := by
            rw [hdel]
            unfold hash_rxq_promiscuous_enable
            rw [if_neg (by simp [hvf]), if_neg (by simp [clearedQ]),
              if_neg (by simp [hfail0])]
          refine ⟨ctr + 1, ?_, Nat.le_refl _⟩
          simp only [promiscEnableLoop, ht, List.map_cons]
          rw [if_neg EINVAL_ne_zero,
            map_const_of_all (canonQ p) rest
              (fun q' h => hcanon q' (List.mem_cons_of_mem q h))]
          rfl
      | succ k' =>
          have hfwd0 : hw ctr = true := by
            have h0 := hfwd 0 (Nat.succ_pos _)
            rwa [Nat.add_zero] at h0
          have ht : hash_rxq_promiscuous_enable p
              (hash_rxq_mac_addrs_del p q) hw ctr = (0, promOnQ, ctr + 1) := by
            rw [hdel]
            unfold hash_rxq_promiscuous_enable
            rw [if_neg (by simp [hvf]), if_neg (by simp [clearedQ]),
              if_pos hfwd0]
            rfl
          obtain ⟨c', hs, hle⟩ := ih (ctr + 1) k'
            (by
              have := hk
              simp only [List.length_cons] at this
              omega)
            (fun q' h => hcanon q' (List.mem_cons_of_mem q h))
            (fun j hj => by
              have h1 := hfwd (j + 1) (Nat.succ_lt_succ hj)
              rwa [show ctr + (j + 1) = ctr + 1 + j from by omega] at h1)
            (by
              rwa [show ctr + (k' + 1) = ctr + 1 + k' from by omega] at hfail)
            (by
              rwa [show ctr + (k' + 1) + 1 = ctr + 1 + k' + 1 from by omega]
                at hok)
          have hokc : hwOk hw c' := hwOk_mono hok (by omega)
          have hdis : hash_rxq_promiscuous_disable p promOnQ = clearedQ := by
            unfold hash_rxq_promiscuous_disable
            rw [if_neg (by simp [hvf]), if_neg (by simp [promOnQ, clearedQ])]
            rfl
          obtain ⟨ur, uq, uc⟩ := hash_rxq_mac_addrs_add_clearedQ p hw c' hokc
          refine ⟨(hash_rxq_mac_addrs_add p clearedQ hw c').2.2, ?_,
            Nat.le_trans (by omega) uc⟩
          simp only [promiscEnableLoop, ht, hs, hst, if_true, ite_true,
            eq_self_iff_true, hdis, List.map_cons]
          rw [if_neg EINVAL_ne_zero, uq]
          rfl

/-- With an accepting oracle and no pre-existing allmulticast flow, the
allmulticast-enable loop installs one broad multicast rule per queue and
consumes exactly one hardware call per queue. -/
theorem allmultiEnableLoop_ok (hw : Nat → Bool) :
    ∀ (qs : List HashRxq) (ctr : Nat), hwOk hw ctr →
      (∀ q ∈ qs, q.allmulti_flow = false) →
      allmultiEnableLoop hw qs ctr
        = (0, qs.map (fun q => { q with allmulti_flow := true }),
           ctr + qs.length) := by
  intro qs
  induction qs with
  | nil => intro ctr _ _; rfl
  | cons q rest ih =>
      intro ctr hok hflow
      have ht : hash_rxq_allmulticast_enable q hw ctr
          = (0, { q with allmulti_flow := true }, ctr + 1) := by
        unfold hash_rxq_allmulticast_enable
        rw [if_neg (by simp [hflow q (List.mem_cons_self q rest)]),
          if_pos (hok ctr (Nat.le_refl _))]
      have hrest := ih (ctr + 1) (hwOk_mono hok (Nat.le_succ _))
        (fun q' h => hflow q' (List.mem_cons_of_mem q h))
      simp only [allmultiEnableLoop, ht, hrest, List.map_cons,
        List.length_cons, if_true, ite_true, eq_self_iff_true]
      rw [show ctr + 1 + rest.length = ctr + (rest.length + 1) from by omega]

/-- Failure injection for the allmulticast-enable loop: if the hardware
rejects the `(k+1)`-th creation, the loop rolls back the `k` flows it
installed and returns `EINVAL` with the queue list bit-for-bit
unchanged. -/
theorem allmultiEnableLoop_inject (hw : Nat → Bool) :
    ∀ (qs : List HashRxq) (ctr k : Nat), k < qs.length →
      (∀ q ∈ qs, q.allmulti_flow = false) →
      (∀ j, j < k → hw (ctr + j) = true) → hw (ctr + k) = false →
      allmultiEnableLoop hw qs ctr = (EINVAL, qs, ctr + k + 1) := by
  intro qs
  induction qs with
  | nil =>
      intro ctr k hk
      exact absurd hk (by simp)
  | cons q rest ih =>
      intro ctr k hk hflow hfwd hfail
      cases k with
      | zero =>
          have hfail0 : hw ctr = false := by
            rwa [Nat.add_zero] at hfail
          have ht : hash_rxq_allmulticast_enable q hw ctr
              = (EINVAL, q, ctr + 1) := by
            unfold hash_rxq_allmulticast_enable
            rw [if_neg (by simp [hflow q (List.mem_cons_self q rest)]),
              if_neg (by simp [hfail0])]
          simp only [allmultiEnableLoop, ht]
          rw [if_neg EINVAL_ne_zero]
      | succ k' =>
          have hfwd0 : hw ctr = true := by
            have h0 := hfwd 0 (Nat.succ_pos _)
            rwa [Nat.add_zero] at h0
          have ht : hash_rxq_allmulticast_enable q hw ctr
              = (0, { q with allmulti_flow := true }, ctr + 1) := by
            unfold hash_rxq_allmulticast_enable
            rw [if_neg (by simp [hflow q (List.mem_cons_self q rest)]),
              if_pos hfwd0]
          have hs := ih (ctr + 1) k'
            (by
              have := hk
              simp only [List.length_cons] at this
              omega)
            (fun q' h => hflow q' (List.mem_cons_of_mem q h))
            (fun j hj => by
              have h1 := hfwd (j + 1) (Nat.succ_lt_succ hj)
              rwa [show ctr + (j + 1) = ctr + 1 + j from by omega] at h1)
            (by
              rwa [show ctr + (k' + 1) = ctr + 1 + k' from by omega] at hfail)
          have hround : hash_rxq_allmulticast_disable
              { q with allmulti_flow := true } = q := by
            unfold hash_rxq_allmulticast_disable
            rw [if_neg (by simp)]
            exact HashRxq.ext rfl rfl rfl
              (hflow q (List.mem_cons_self q rest)).symm
          simp only [allmultiEnableLoop, ht, hs, hround, if_true, ite_true,
            eq_self_iff_true]
          rw [if_neg EINVAL_ne_zero,
            show ctr + 1 + k' + 1 = ctr + (k' + 1) + 1 from by omega]

/-- C6: group-wide enable operations are atomic at queue granularity.
When the hardware rejects the broad rule of queue `k` (accepting the
first `k` creations and every later rollback call) on a started physical
function with canonical queues: promiscuous enable returns `EINVAL`,
leaves the `promisc` flag clear, restores every queue other than `k`
bit-for-bit (queue `k` is left with its per-MAC rules removed, as the
code does not re-add them on the failing queue); allmulticast enable
returns `EINVAL` with the device bit-for-bit unchanged; and with an
accepting oracle both enables succeed and only then set their flag. -/
theorem c6_group_enable_rollback (p : Priv) (hw : Nat → Bool) (k : Nat)
    (hvf : p.vf = false) (hst : p.started = true)
    (hpm : p.promisc = false) (ham : p.allmulti = false)
    (hk : k < p.hash_rxqs.length)
    (hcanon : ∀ q ∈ p.hash_rxqs, q = canonQ p)
    (hfwd : ∀ j, j < k → hw j = true) (hfail : hw k = false)
    (hrec : hwOk hw (k + 1)) :
    (priv_promiscuous_enable p hw 0).1 = EINVAL
    ∧ (priv_promiscuous_enable p hw 0).2.1.promisc = false
    ∧ (priv_promiscuous_enable p hw 0).2.1.hash_rxqs
        = p.hash_rxqs.set k clearedQ
    ∧ (∀ i, i ≠ k →
        (priv_promiscuous_enable p hw 0).2.1.hash_rxqs[i]?
          = p.hash_rxqs[i]?)
    ∧ priv_allmulticast_enable p hw 0 = (EINVAL, p, k + 1)
    ∧ (∀ hw2 : Nat → Bool, hwOk hw2 0 →
        (priv_promiscuous_enable p hw2 0).1 = 0
        ∧ (priv_promiscuous_enable p hw2 0).2.1.promisc = true
        ∧ (priv_allmulticast_enable p hw2 0).1 = 0
        ∧ (priv_allmulticast_enable p hw2 0).2.1.allmulti = true) := by
  have hflow : ∀ q ∈ p.hash_rxqs, q.allmulti_flow = false :=
    fun q h => by rw [hcanon q h]; rfl
  obtain ⟨c', hs, hle⟩ := promiscEnableLoop_inject p hw hvf hst
    p.hash_rxqs 0 k hk hcanon
    (fun j hj => by rw [Nat.zero_add]; exact hfwd j hj)
    (by rwa [Nat.zero_add]) (by rwa [Nat.zero_add])
  have hmap : p.hash_rxqs.map (fun _ => canonQ p) = p.hash_rxqs :=
    map_const_of_all (canonQ p) p.hash_rxqs hcanon
  rw [hmap] at hs
  have hpenable : priv_promiscuous_enable p hw 0
      = (EINVAL, { p with hash_rxqs := p.hash_rxqs.set k clearedQ }, c') := by
    unfold priv_promiscuous_enable
    rw [if_neg (by simp [hpm]), hs]
    rw [if_neg EINVAL_ne_zero]
  have haml := allmultiEnableLoop_inject hw p.hash_rxqs 0 k hk hflow
    (fun j hj => by rw [Nat.zero_add]; exact hfwd j hj)
    (by rwa [Nat.zero_add])
  have hamenable : priv_allmulticast_enable p hw 0 = (EINVAL, p, k + 1) := by
    unfold priv_allmulticast_enable
    rw [if_neg (by simp [ham]), haml]
    rw [if_neg EINVAL_ne_zero, Nat.zero_add]
  refine ⟨by rw [hpenable], by rw [hpenable]; exact hpm, by rw [hpenable],
    ?_, hamenable, ?_⟩
  · intro i hik
    rw [hpenable]
    exact List.getElem?_set_ne (Ne.symm hik)
  · intro hw2 hok2
    have hperun : priv_promiscuous_enable p hw2 0
        = (0, { p with
            hash_rxqs := p.hash_rxqs.map (fun _ => promOnQ),
            promisc := true }, 0 + p.hash_rxqs.length) := by
      unfold priv_promiscuous_enable
      rw [if_neg (by simp [hpm]), promiscEnableLoop_canon p hw2 hvf
        p.hash_rxqs 0 hok2 hcanon]
      rfl
    have hamrun : priv_allmulticast_enable p hw2 0
        = (0, { p with
            hash_rxqs := p.hash_rxqs.map
              (fun q => { q with allmulti_flow := true }),
            allmulti := true }, 0 + p.hash_rxqs.length) := by
      unfold priv_allmulticast_enable
      rw [if_neg (by simp [ham]), allmultiEnableLoop_ok hw2
        p.hash_rxqs 0 hok2 hflow]
      rfl
    exact ⟨by rw [hperun], by rw [hperun], by rw [hamrun], by rw [hamrun]⟩

/-- A started physical function with two canonical hash queues (C6
witness base). -/
def privC6base : Priv :=
  { n_mac := 1, n_vlan := 0,
    mac := fun _ => [0, 1, 2, 3, 4, 5],
    mac_configured := fun j => j == 0, vlan_enabled := fun _ => false,
    hash_rxqs := [], started := true, vf := false,
    promisc := false, allmulti := false }

/-- The C6 witness device. -/
def privC6 : Priv :=
  { privC6base with hash_rxqs := [canonQ privC6base, canonQ privC6base] }

/-- A hardware oracle rejecting exactly the second flow creation. -/
def hwC6 : Nat → Bool := fun c => c != 1

/-- C6, witness: failure injection at queue 1 of a two-queue device. -/
theorem c6_group_enable_rollback_witness :
    (priv_promiscuous_enable privC6 hwC6 0).1 = EINVAL
    ∧ priv_allmulticast_enable privC6 hwC6 0 = (EINVAL, privC6, 2) := by
  have h := c6_group_enable_rollback privC6 hwC6 1 rfl rfl rfl rfl
    (by decide)
    (fun q hq => by
      simp only [privC6, List.mem_cons, List.mem_singleton,
        List.not_mem_nil, or_false] at hq
      rcases hq with h | h <;> (subst h; rfl))
    (fun j hj => by
      have hj0 : j = 0 := by omega
      subst hj0
      rfl)
    rfl
    (fun d hd => by
      have hd1 : d ≠ 1 := by omega
      simp [hwC6, hd1])
  exact ⟨h.1, h.2.2.2.2.1⟩

/-! ### Hash queue group construction (`priv_create_hash_rxqs`,
mlx5_rxq.c:303)

Indirection tables and hash QPs are hardware objects created through
verbs calls; a slot holds `true` while the object is live.  The two
`rte_calloc` container allocations are modelled by the Booleans
`allocInd` and `allocHash`; creation calls consult the oracle `hw` at a
running counter, an errno-less failure yielding `EINVAL`.  The per-table
size computation (`min max_size wqs_n`, rounded by `log2above`) and the
`j`/`k` hash-type walk only select configuration data for each creation
call and do not influence the control flow, which advances one creation
per iteration in both loops. -/

/-- One entry of `ind_table_init[]` (mlx5_rxq.c:162). -/
structure IndTableInit where
  max_size : Nat
  hash_types_n : Nat
deriving DecidableEq

/-- `ind_table_init[IND_TABLE_GENERIC]` (`-1u` max size, six hash
types). -/
def IND_TABLE_GENERIC : IndTableInit :=
  { max_size := 2 ^ 32 - 1, hash_types_n := 6 }

/-- `ind_table_init[IND_TABLE_DRAIN]`. -/
def IND_TABLE_DRAIN : IndTableInit :=
  { max_size := 1, hash_types_n := 1 }

/-- `ind_table_init_rss` (mlx5_rxq.c:191). -/
def ind_table_init_rss : List IndTableInit :=
  [IND_TABLE_GENERIC, IND_TABLE_DRAIN]

/-- `ind_table_init_no_rss` (mlx5_rxq.c:198). -/
def ind_table_init_no_rss : List IndTableInit :=
  [IND_TABLE_DRAIN]

/-- The `priv` fields touched by hash queue group construction. -/
structure PrivInd where
  rxqs_n : Nat
  ind_table_max_size : Nat
  ind_tables : Option (List Bool)
  ind_tables_n : Nat
  hash_rxqs : Option (List Bool)
  hash_rxqs_n : Nat
deriving DecidableEq

/-- The indirection tables selected at mlx5_rxq.c:315. -/
def indTableInitOf (p : PrivInd) : List IndTableInit :=
  if p.rxqs_n = 1 then ind_table_init_no_rss else ind_table_init_rss

/-- The counting loop at mlx5_rxq.c:357: number of indirection tables. -/
def ind_tables_n_of (p : PrivInd) : Nat := (indTableInitOf p).length

/-- The counting loop at mlx5_rxq.c:357: number of hash RX queues. -/
def hash_rxqs_n_of (p : PrivInd) : Nat :=
  ((indTableInitOf p).map (fun it => it.hash_types_n)).sum

/-- The common shape of the two creation loops (mlx5_rxq.c:372 and
mlx5_rxq.c:407): one verbs creation per iteration, bailing out to the
error label on the first failure and leaving the remaining calloc-zeroed
slots `NULL`. -/
def createLoop (hw : Nat → Bool) : Nat → Nat → Nat × List Bool × Nat
  | 0, ctr => (0, [], ctr)
  | n + 1, ctr =>
    if hw ctr then
      let s := createLoop hw n (ctr + 1)
      (s.1, true :: s.2.1, s.2.2)
    else (EINVAL, false :: List.replicate n false, ctr + 1)

/-- The error-label slot sweep (mlx5_rxq.c:463 and mlx5_rxq.c:473):
destroy every non-`NULL` object, skip `NULL` slots. -/
def destroySlots (slots : List Bool) : List Bool :=
  slots.map (fun b => if b then false else b)

/-- Number of live hardware objects in a slot array. -/
def liveCount (slots : List Bool) : Nat := slots.countP (fun b => b)

/-- `priv_create_hash_rxqs` (mlx5_rxq.c:303).  Returns the C return
value, the updated `priv` fields, the number of hardware objects still
live inside containers freed on the error path (leaked objects), and the
final call counter. -/
def priv_create_hash_rxqs (p : PrivInd) (hw : Nat → Bool)
    (allocInd allocHash : Bool) (ctr : Nat) :
    Nat × PrivInd × Nat × Nat :=
  let wqs_n := wqs_n_of p.rxqs_n p.ind_table_max_size
  if p.rxqs_n = 0 then (EINVAL, p, 0, ctr)
  else if wqs_n < p.rxqs_n ∨ p.ind_table_max_size < wqs_n then
    (ERANGE, p, 0, ctr)
  else if ¬ allocInd then (ENOMEM, p, 0, ctr)
  else
    let t := createLoop hw (ind_tables_n_of p) ctr
    if t.1 = 0 then
      if ¬ allocHash then
        (ENOMEM, p, liveCount (destroySlots t.2.1), t.2.2)
      else
        let u := createLoop hw (hash_rxqs_n_of p) t.2.2
        if u.1 = 0 then
          (0,
            { p with
              ind_tables := some t.2.1,
              ind_tables_n := ind_tables_n_of p,
              hash_rxqs := some u.2.1,
              hash_rxqs_n := hash_rxqs_n_of p },
            0, u.2.2)
        else
          (u.1, p,
            liveCount (destroySlots u.2.1) + liveCount (destroySlots t.2.1),
            u.2.2)
    else (t.1, p, liveCount (destroySlots t.2.1), t.2.2)

/-- The error-label sweep destroys every live object: no slot survives
it. -/
theorem liveCount_destroySlots (l : List Bool) :
    liveCount (destroySlots l) = 0 := by
  unfold liveCount destroySlots
  induction l with
  | nil => rfl
  | cons b rest ih =>
      rw [List.map_cons, List.countP_cons]
      cases b <;> simp [ih]

/-- A creation loop whose first `n` calls all succeed creates all `n`
objects and consumes `n` calls. -/
theorem createLoop_ok (hw : Nat → Bool) :
    ∀ (n ctr : Nat), (∀ j, j < n → hw (ctr + j) = true) →
      createLoop hw n ctr = (0, List.replicate n true, ctr + n) := by
  intro n
  induction n with
  | zero => intro ctr _; rfl
  | succ m ih =>
      intro ctr hok
      have h0 : hw ctr = true := by
        have h1 := hok 0 (Nat.succ_pos _)
        rwa [Nat.add_zero] at h1
      have hrest := ih (ctr + 1) (fun j hj => by
        have h1 := hok (j + 1) (Nat.succ_lt_succ hj)
        rwa [show ctr + (j + 1) = ctr + 1 + j from by omega] at h1)
      simp only [createLoop, h0, if_true, ite_true, hrest,
        List.replicate_succ, eq_self_iff_true]
      rw [show ctr + 1 + m = ctr + (m + 1) from by omega]

/-- Failure injection for a creation loop: the `(k+1)`-th call fails,
so the loop stops there with `EINVAL`, the first `k` slots created and
the rest still `NULL`. -/
theorem createLoop_inject (hw : Nat → Bool) :
    ∀ (n ctr k : Nat), k < n →
      (∀ j, j < k → hw (ctr + j) = true) → hw (ctr + k) = false →
      createLoop hw n ctr
        = (EINVAL,
           List.replicate k true ++ false :: List.replicate (n - (k + 1)) false,
           ctr + k + 1) := by
  intro n
  induction n with
  | zero =>
      intro ctr k hk
      exact absurd hk (Nat.not_lt_zero k)
  | succ m ih =>
      intro ctr k hk hfwd hfail
      cases k with
      | zero =>
          have hfail0 : hw ctr = false := by
            rwa [Nat.add_zero] at hfail
          simp only [createLoop, hfail0, Bool.false_eq_true, if_false,
            ite_false, List.replicate, List.nil_append, Nat.add_sub_cancel]
      | succ k' =>
          have hfwd0 : hw ctr = true := by
            have h1 := hfwd 0 (Nat.succ_pos _)
            rwa [Nat.add_zero] at h1
          have hrest := ih (ctr + 1) k' (by omega)
            (fun j hj => by
              have h1 := hfwd (j + 1) (Nat.succ_lt_succ hj)
              rwa [show ctr + (j + 1) = ctr + 1 + j from by omega] at h1)
            (by
              rwa [show ctr + (k' + 1) = ctr + 1 + k' from by omega] at hfail)
          simp only [createLoop, hfwd0, if_true, ite_true, hrest,
            List.replicate_succ, List.cons_append, eq_self_iff_true]
          rw [show ctr + 1 + k' + 1 = ctr + (k' + 1) + 1 from by omega,
            show m - (k' + 1) = m + 1 - (k' + 1 + 1) from by omega]

/-- C7: all-or-nothing construction of the hash queue group.  With the
range guards satisfied: a hardware creation failure at any call `k`
(whether inside the indirection-table loop or the QP loop) makes the
function return the first error `EINVAL`, destroy every object created
so far (zero leaked objects) and leave the `priv` fields untouched;
either container-allocation failure likewise returns `ENOMEM` with a
full rollback; and when every creation succeeds, the function returns 0
and installs both containers with their counts. -/
theorem c7_all_or_nothing (p : PrivInd) (hw : Nat → Bool) (ctr k : Nat)
    (hn : p.rxqs_n ≠ 0)
    (hlo : p.rxqs_n ≤ wqs_n_of p.rxqs_n p.ind_table_max_size)
    (hhi : wqs_n_of p.rxqs_n p.ind_table_max_size ≤ p.ind_table_max_size)
    (hk : k < ind_tables_n_of p + hash_rxqs_n_of p)
    (hfwd : ∀ j, j < k → hw (ctr + j) = true)
    (hfail : hw (ctr + k) = false) :
    (priv_create_hash_rxqs p hw true true ctr).1 = EINVAL
    ∧ (priv_create_hash_rxqs p hw true true ctr).2.1 = p
    ∧ (priv_create_hash_rxqs p hw true true ctr).2.2.1 = 0
    ∧ (priv_create_hash_rxqs p hw false true ctr)
        = (ENOMEM, p, 0, ctr)
    ∧ (∀ hw2 : Nat → Bool, hwOk hw2 ctr →
        (priv_create_hash_rxqs p hw2 true false ctr).1 = ENOMEM
        ∧ (priv_create_hash_rxqs p hw2 true false ctr).2.1 = p
        ∧ (priv_create_hash_rxqs p hw2 true false ctr).2.2.1 = 0)
    ∧ (∀ hw2 : Nat → Bool, hwOk hw2 ctr →
        (priv_create_hash_rxqs p hw2 true true ctr).1 = 0
        ∧ (priv_create_hash_rxqs p hw2 true true ctr).2.1
            = { p with
                ind_tables := some (List.replicate (ind_tables_n_of p) true),
                ind_tables_n := ind_tables_n_of p,
                hash_rxqs := some (List.replicate (hash_rxqs_n_of p) true),
                hash_rxqs_n := hash_rxqs_n_of p }) := by
  have hguard : ¬ (wqs_n_of p.rxqs_n p.ind_table_max_size < p.rxqs_n
      ∨ p.ind_table_max_size < wqs_n_of p.rxqs_n p.ind_table_max_size) := by
    omega
  have hfailpath : (priv_create_hash_rxqs p hw true true ctr).1 = EINVAL
      ∧ (priv_create_hash_rxqs p hw true true ctr).2.1 = p
      ∧ (priv_create_hash_rxqs p hw true true ctr).2.2.1 = 0 := by
    by_cases hcase : k < ind_tables_n_of p
    · have ht := createLoop_inject hw (ind_tables_n_of p) ctr k hcase
        hfwd hfail
      unfold priv_create_hash_rxqs
      rw [if_neg hn, if_neg hguard, if_neg (by simp), ht]
      rw [if_neg EINVAL_ne_zero]
      exact ⟨rfl, rfl, liveCount_destroySlots _⟩
    · have hok1 : ∀ j, j < ind_tables_n_of p → hw (ctr + j) = true :=
        fun j hj => hfwd j (by omega)
      have ht := createLoop_ok hw (ind_tables_n_of p) ctr hok1
      have hu := createLoop_inject hw (hash_rxqs_n_of p)
        (ctr + ind_tables_n_of p) (k - ind_tables_n_of p) (by omega)
        (fun j hj => by
          have h1 := hfwd (ind_tables_n_of p + j) (by omega)
          rwa [show ctr + (ind_tables_n_of p + j)
            = ctr + ind_tables_n_of p + j from by omega] at h1)
        (by
          rwa [show ctr + k
            = ctr + ind_tables_n_of p + (k - ind_tables_n_of p)
            from by omega] at hfail)
      unfold priv_create_hash_rxqs
      rw [if_neg hn, if_neg hguard, if_neg (by simp), ht]
      rw [if_pos rfl, if_neg (by simp), hu]
      rw [if_neg EINVAL_ne_zero]
      refine ⟨rfl, rfl, ?_⟩
      rw [liveCount_destroySlots, liveCount_destroySlots]
  refine ⟨hfailpath.1, hfailpath.2.1, hfailpath.2.2, ?_, ?_, ?_⟩
  · unfold priv_create_hash_rxqs
    rw [if_neg hn, if_neg hguard, if_pos (by simp)]
  · intro hw2 hok2
    have ht := createLoop_ok hw2 (ind_tables_n_of p) ctr
      (fun j _ => hok2 (ctr + j) (by omega))
    unfold priv_create_hash_rxqs
    rw [if_neg hn, if_neg hguard, if_neg (by simp), ht]
    rw [if_pos rfl, if_pos (by simp)]
    exact ⟨rfl, rfl, liveCount_destroySlots _⟩
  · intro hw2 hok2
    have ht := createLoop_ok hw2 (ind_tables_n_of p) ctr
      (fun j _ => hok2 (ctr + j) (by omega))
    have hu := createLoop_ok hw2 (hash_rxqs_n_of p) (ctr + ind_tables_n_of p)
      (fun j _ => hok2 (ctr + ind_tables_n_of p + j) (by omega))
    unfold priv_create_hash_rxqs
    rw [if_neg hn, if_neg hguard, if_neg (by simp), ht]
    rw [if_pos rfl, if_neg (by simp), hu]
    rw [if_pos rfl]
    exact ⟨rfl, rfl⟩

/-- The C7 witness device: two RX queues, no hash queue group yet. -/
def privC7 : PrivInd :=
  { rxqs_n := 2, ind_table_max_size := 16,
    ind_tables := none, ind_tables_n := 0,
    hash_rxqs := none, hash_rxqs_n := 0 }

/-- A hardware oracle rejecting exactly the fourth creation call
(the second hash QP, after both indirection tables succeeded). -/
def hwC7 : Nat → Bool := fun c => c != 3

/-- C7, witness: failure injection in the QP loop of a concrete
device rolls back both indirection tables. -/
theorem c7_all_or_nothing_witness :
    (priv_create_hash_rxqs privC7 hwC7 true true 0).1 = EINVAL
    ∧ (priv_create_hash_rxqs privC7 hwC7 true true 0).2.1 = privC7
    ∧ (priv_create_hash_rxqs privC7 hwC7 true true 0).2.2.1 = 0 := by
  have h := c7_all_or_nothing privC7 hwC7 0 3
    (by decide) (by decide) (by decide) (by decide)
    (fun j hj => by
      have hj3 : j ≠ 3 := by omega
      simp [hwC7, hj3])
    rfl
  exact ⟨h.1, h.2.1, h.2.2.1⟩

/-! ### RX element allocation (`rxq_alloc_elts_sp`, mlx5_rxq.c:546 and
`rxq_alloc_elts`, mlx5_rxq.c:685)

Buffers are identifiers drawn in order from the queue's mempool `mp`
(a finite supply; `rte_pktmbuf_alloc` fails when it is exhausted).  The
`elts` array allocation is the Boolean `callocOk`.  Each function
returns the C return value, the updated queue, and the list of buffers
released by the error path (`rte_pktmbuf_free_seg` on every non-`NULL`
slot, in slot order), which the model reports instead of re-enqueueing
into the mempool.  The recycle-pool path (`pool != NULL`) cannot fail
(the code asserts every pool entry is non-`NULL`), so the model covers
the allocator path.  The scatter-segment count `MLX5_PMD_SGE_WR_N`
comes from `mlx5_defs.h`, which is not part of this tree; it is kept as
the parameter `sgeN`. -/

/-- The relevant `rxq` fields for element allocation. -/
structure RxqA where
  mp : List Nat
  elts_n : Nat
  elts_head : Nat
  elts_sp : Option (List (List Nat))
  elts_no_sp : Option (List Nat)
deriving DecidableEq

/-- The draw-and-attach loop shared shape (mlx5_rxq.c:700 per element;
mlx5_rxq.c:570 per segment): draw one buffer per slot, bail out with
`ENOMEM` when the mempool is exhausted, keeping the already-attached
buffers in the slots. -/
def allocLoop : Nat → List Nat → Nat × List Nat × List Nat
  | 0, mp => (0, [], mp)
  | _ + 1, [] => (ENOMEM, [], [])
  | n + 1, b :: mp =>
    let s := allocLoop n mp
    (s.1, b :: s.2.1, s.2.2)

/-- The scattered element loop (mlx5_rxq.c:562): `sgeN` segments per
element; on a segment failure the partially filled element stays in its
slot (to be swept by the error path). -/
def allocLoopSp (sgeN : Nat) : Nat → List Nat → Nat × List (List Nat)
    × List Nat
  | 0, mp => (0, [], mp)
  | n + 1, mp =>
    let t := allocLoop sgeN mp
    if t.1 = 0 then
      let s := allocLoopSp sgeN n t.2.2
      (s.1, t.2.1 :: s.2.1, s.2.2)
    else (t.1, [t.2.1], t.2.2)

/-- `rxq_alloc_elts` (mlx5_rxq.c:685): on success install the ring and
reset the head cursor; on failure free every attached buffer and leave
the queue fields untouched. -/
def rxq_alloc_elts (q : RxqA) (elts_n : Nat) (callocOk : Bool) :
    Nat × RxqA × List Nat :=
  if ¬ callocOk then (ENOMEM, q, [])
  else
    let t := allocLoop elts_n q.mp
    if t.1 = 0 then
      (0, { q with
            elts_n := elts_n,
            elts_head := 0,
            elts_no_sp := some t.2.1,
            mp := t.2.2 }, [])
    else (t.1, { q with mp := t.2.2 }, t.2.1)

/-- `rxq_alloc_elts_sp` (mlx5_rxq.c:546): the scattered variant. -/
def rxq_alloc_elts_sp (q : RxqA) (elts_n sgeN : Nat) (callocOk : Bool) :
    Nat × RxqA × List Nat :=
  if ¬ callocOk then (ENOMEM, q, [])
  else
    let t := allocLoopSp sgeN elts_n q.mp
    if t.1 = 0 then
      (0, { q with
            elts_n := elts_n,
            elts_head := 0,
            elts_sp := some t.2.1,
            mp := t.2.2 }, [])
    else (t.1, { q with mp := t.2.2 }, t.2.1.flatten)

theorem ENOMEM_ne_zero : ¬ (ENOMEM = 0) := by decide

/-- A draw loop with sufficient supply takes exactly the first `n`
buffers of the mempool. -/
theorem allocLoop_ok :
    ∀ (n : Nat) (mp : List Nat), n ≤ mp.length →
      allocLoop n mp = (0, mp.take n, mp.drop n) := by
  intro n
  induction n with
  | zero => intro mp _; rfl
  | succ m ih =>
      intro mp hle
      cases mp with
      | nil => exact absurd hle (by simp)
      | cons b rest =>
          have hr := ih rest (by
            have h1 := hle
            simp only [List.length_cons] at h1
            omega)
          simp only [allocLoop, hr, List.take_succ_cons, List.drop_succ_cons]

/-- A draw loop with insufficient supply drains the mempool, keeps
every drawn buffer attached, and reports `ENOMEM`. -/
theorem allocLoop_fail :
    ∀ (mp : List Nat) (n : Nat), mp.length < n →
      allocLoop n mp = (ENOMEM, mp, []) := by
  intro mp
  induction mp with
  | nil =>
      intro n hn
      cases n with
      | zero => exact absurd hn (by simp)
      | succ m => rfl
  | cons b rest ih =>
      intro n hn
      cases n with
      | zero => exact absurd hn (by simp)
      | succ m =>
          have hr := ih m (by
            have h1 := hn
            simp only [List.length_cons] at h1
            omega)
          simp only [allocLoop, hr]

/-- The scattered loop with sufficient supply draws all `n * sgeN`
buffers in order. -/
theorem allocLoopSp_ok (sgeN : Nat) :
    ∀ (n : Nat) (mp : List Nat), n * sgeN ≤ mp.length →
      (allocLoopSp sgeN n mp).1 = 0
      ∧ (allocLoopSp sgeN n mp).2.1.flatten = mp.take (n * sgeN)
      ∧ (allocLoopSp sgeN n mp).2.2 = mp.drop (n * sgeN) := by
  intro n
  induction n with
  | zero =>
      intro mp _
      exact ⟨rfl, by simp [allocLoopSp], by simp [allocLoopSp]⟩
  | succ m ih =>
      intro mp hle
      rw [Nat.succ_mul] at hle
      have ht := allocLoop_ok sgeN mp (by omega)
      obtain ⟨hr, hf, hd⟩ := ih (mp.drop sgeN) (by
        rw [List.length_drop]
        omega)
      have heq : allocLoopSp sgeN (m + 1) mp
          = ((allocLoopSp sgeN m (mp.drop sgeN)).1,
             mp.take sgeN :: (allocLoopSp sgeN m (mp.drop sgeN)).2.1,
             (allocLoopSp sgeN m (mp.drop sgeN)).2.2) := by
        simp only [allocLoopSp, ht]
        rw [if_true]
      rw [heq]
      refine ⟨hr, ?_, ?_⟩
      · rw [List.flatten_cons, hf, ← List.take_add,
          show sgeN + m * sgeN = (m + 1) * sgeN from by
            rw [Nat.succ_mul]; omega]
      · rw [hd, List.drop_drop,
          show sgeN + m * sgeN = (m + 1) * sgeN from by
            rw [Nat.succ_mul]; omega]

/-- The scattered loop with insufficient supply: the mempool is
drained, every drawn buffer sits attached to some (possibly partial)
element, and `ENOMEM` is reported. -/
theorem allocLoopSp_fail (sgeN : Nat) :
    ∀ (n : Nat) (mp : List Nat), mp.length < n * sgeN →
      (allocLoopSp sgeN n mp).1 = ENOMEM
      ∧ (allocLoopSp sgeN n mp).2.1.flatten = mp
      ∧ (allocLoopSp sgeN n mp).2.2 = [] := by
  intro n
  induction n with
  | zero =>
      intro mp hlt
      rw [Nat.zero_mul] at hlt
      exact absurd hlt (Nat.not_lt_zero _)
  | succ m ih =>
      intro mp hlt
      rw [Nat.succ_mul] at hlt
      by_cases hcase : sgeN ≤ mp.length
      · have ht := allocLoop_ok sgeN mp hcase
        obtain ⟨hr, hf, hd⟩ := ih (mp.drop sgeN) (by
          rw [List.length_drop]
          omega)
        have heq : allocLoopSp sgeN (m + 1) mp
            = ((allocLoopSp sgeN m (mp.drop sgeN)).1,
               mp.take sgeN :: (allocLoopSp sgeN m (mp.drop sgeN)).2.1,
               (allocLoopSp sgeN m (mp.drop sgeN)).2.2) := by
          simp only [allocLoopSp, ht]
          rw [if_true]
        rw [heq]
        refine ⟨hr, ?_, hd⟩
        rw [List.flatten_cons, hf, List.take_append_drop]
      · have ht := allocLoop_fail mp sgeN (by omega)
        have heq : allocLoopSp sgeN (m + 1) mp = (ENOMEM, [mp], []) := by
          simp only [allocLoopSp, ht]
          rw [if_neg ENOMEM_ne_zero]
        rw [heq]
        exact ⟨rfl, by simp, rfl⟩

/-- C8: when the buffer supply runs out partway through a batch, both
element allocators free every buffer already attached (each exactly
once, in slot order: the freed list is the entire drawn supply), report
`ENOMEM`, and leave the queue's ring pointers, element count and head
cursor untouched; with sufficient supply the non-scattered allocator
installs the ring. -/
theorem c8_alloc_failure_frees_all (q : RxqA) (elts_n sgeN : Nat)
    (hno : q.mp.length < elts_n) (hsp : q.mp.length < elts_n * sgeN) :
    (rxq_alloc_elts q elts_n true).1 = ENOMEM
    ∧ (rxq_alloc_elts q elts_n true).2.1.elts_n = q.elts_n
    ∧ (rxq_alloc_elts q elts_n true).2.1.elts_head = q.elts_head
    ∧ (rxq_alloc_elts q elts_n true).2.1.elts_no_sp = q.elts_no_sp
    ∧ (rxq_alloc_elts q elts_n true).2.1.elts_sp = q.elts_sp
    ∧ (rxq_alloc_elts q elts_n true).2.2 = q.mp
    ∧ (rxq_alloc_elts_sp q elts_n sgeN true).1 = ENOMEM
    ∧ (rxq_alloc_elts_sp q elts_n sgeN true).2.1.elts_n = q.elts_n
    ∧ (rxq_alloc_elts_sp q elts_n sgeN true).2.1.elts_head = q.elts_head
    ∧ (rxq_alloc_elts_sp q elts_n sgeN true).2.1.elts_no_sp = q.elts_no_sp
    ∧ (rxq_alloc_elts_sp q elts_n sgeN true).2.1.elts_sp = q.elts_sp
    ∧ (rxq_alloc_elts_sp q elts_n sgeN true).2.2 = q.mp
    ∧ (∀ (q2 : RxqA), elts_n ≤ q2.mp.length →
        (rxq_alloc_elts q2 elts_n true).1 = 0
        ∧ (rxq_alloc_elts q2 elts_n true).2.1.elts_no_sp
            = some (q2.mp.take elts_n)
        ∧ (rxq_alloc_elts q2 elts_n true).2.2 = []) := by
  have h1 : rxq_alloc_elts q elts_n true
      = (ENOMEM, { q with mp := [] }, q.mp) := by
    unfold rxq_alloc_elts
    rw [if_neg (by simp), allocLoop_fail q.mp elts_n hno]
    rw [if_neg ENOMEM_ne_zero]
  obtain ⟨hr, hf, hd⟩ := allocLoopSp_fail sgeN elts_n q.mp hsp
  have h2a : (rxq_alloc_elts_sp q elts_n sgeN true).1
      = (allocLoopSp sgeN elts_n q.mp).1 := by
    unfold rxq_alloc_elts_sp
    rw [if_neg (by simp)]
    rw [if_neg (by rw [hr]; exact ENOMEM_ne_zero)]
  have h2b : (rxq_alloc_elts_sp q elts_n sgeN true).2.1
      = { q with mp := (allocLoopSp sgeN elts_n q.mp).2.2 } := by
    unfold rxq_alloc_elts_sp
    rw [if_neg (by simp)]
    rw [if_neg (by rw [hr]; exact ENOMEM_ne_zero)]
  have h2c : (rxq_alloc_elts_sp q elts_n sgeN true).2.2
      = (allocLoopSp sgeN elts_n q.mp).2.1.flatten := by
    unfold rxq_alloc_elts_sp
    rw [if_neg (by simp)]
    rw [if_neg (by rw [hr]; exact ENOMEM_ne_zero)]
  refine ⟨by rw [h1], by rw [h1], by rw [h1], by rw [h1], by rw [h1],
    by rw [h1], by rw [h2a, hr], by rw [h2b], by rw [h2b], by rw [h2b],
    by rw [h2b], by rw [h2c, hf], ?_⟩
  intro q2 hle
  have h3 : rxq_alloc_elts q2 elts_n true
      = (0, { q2 with
              elts_n := elts_n,
              elts_head := 0,
              elts_no_sp := some (q2.mp.take elts_n),
              mp := q2.mp.drop elts_n }, []) := by
    unfold rxq_alloc_elts
    rw [if_neg (by simp), allocLoop_ok elts_n q2.mp hle]
    rw [if_pos rfl]
  exact ⟨by rw [h3], by rw [h3], by rw [h3]⟩

/-- The C8 witness queue: a three-buffer mempool. -/
def rxqC8 : RxqA :=
  { mp := [10, 11, 12], elts_n := 0, elts_head := 0,
    elts_sp := none, elts_no_sp := none }

/-- C8, witness: a batch of four elements (four segments each in the
scattered case) against a three-buffer supply. -/
theorem c8_alloc_failure_frees_all_witness :
    (rxq_alloc_elts rxqC8 4 true).1 = ENOMEM
    ∧ (rxq_alloc_elts rxqC8 4 true).2.2 = rxqC8.mp
    ∧ (rxq_alloc_elts_sp rxqC8 4 4 true).1 = ENOMEM
    ∧ (rxq_alloc_elts_sp rxqC8 4 4 true).2.2 = rxqC8.mp := by
  have h := c8_alloc_failure_frees_all rxqC8 4 4 (by decide) (by decide)
  exact ⟨h.1, h.2.2.2.2.2.1, h.2.2.2.2.2.2.1, h.2.2.2.2.2.2.2.2.2.2.2.1⟩

/-! ### Queue rehash (`rxq_rehash`, mlx5_rxq.c:860)

`tmpl` is a by-value copy of `*rxq`, but the verbs objects (`wq`, `cq`)
inside it are pointers to the live queue's hardware objects, so
`ibv_exp_modify_wq(tmpl.wq, RESET)` and `ibv_resize_cq(tmpl.cq, ...)`
act on the live queue; the model therefore keeps `wq_state` and
`cq_size` in the queue state.  The checksum toggles are written to
`*rxq` immediately (mlx5_rxq.c:879).  Each fallible step is a Boolean
(`resetOk`, `resizeOk`, `poolOk`, `callocOk`, `rdyOk`, `postOk`);
the element reallocation is fed from the snatched `pool`, whose entries
the code asserts non-`NULL`, so it can only fail on the `rte_calloc` of
the new element array (`callocOk`).  The interim clearing of
`rxq->elts` (mlx5_rxq.c:965) is overwritten by `*rxq = tmpl` at the
error label and is not separately observable. -/

/-- Verbs work-queue state (`IBV_EXP_WQS_RDY` / `IBV_EXP_WQS_RESET`). -/
inductive WqState where
  | rdy : WqState
  | reset : WqState
deriving DecidableEq

/-- The `rxq` fields touched by a rehash. -/
structure RxqR where
  elts_n : Nat
  sp : Bool
  csum : Bool
  csum_l2tun : Bool
  elts_sp : Option (List (List Nat))
  elts_no_sp : Option (List Nat)
  wq_state : WqState
  cq_size : Nat
deriving DecidableEq

/-- Regroup a buffer list into `k` elements of `n` segments each (the
scattered reallocation layout). -/
def chunkAux (n : Nat) : Nat -> List Nat -> List (List Nat)
  | 0, _ => []
  | k + 1, l => l.take n :: chunkAux n k (l.drop n)

/-- The descriptor count after a mode change (mlx5_rxq.c:874 and
mlx5_rxq.c:890). -/
def rehash_desc_n (q : RxqR) (sgeN : Nat) (sp_new : Bool) : Nat :=
  let d := q.elts_n * (if q.sp then sgeN else 1)
  if sp_new then d / sgeN else d

/-- `rxq_rehash` (mlx5_rxq.c:860). -/
def rxq_rehash (q : RxqR) (hw_csum hw_csum_l2tun hw_ip_checksum : Bool)
    (jumbo lenExceeds : Bool) (sgeN : Nat)
    (resetOk resizeOk poolOk callocOk rdyOk postOk : Bool) :
    Nat × RxqR :=
  let csum1 := if hw_csum then hw_ip_checksum else q.csum
  let csum2 := if hw_csum_l2tun then hw_ip_checksum else q.csum_l2tun
  let q1 := { q with csum := csum1, csum_l2tun := csum2 }
  let sp_new := jumbo && lenExceeds
  let desc_n := rehash_desc_n q sgeN sp_new
  if sp_new == q.sp then (0, q1)
  else if ¬ resetOk then (EINVAL, q1)
  else
    let q2 := { q1 with wq_state := WqState.reset }
    if ¬ resizeOk then (EINVAL, q2)
    else
      let q3 := { q2 with cq_size := desc_n }
      if ¬ poolOk then (ENOBUFS, q3)
      else
        let pool := if q.sp then (q.elts_sp.getD []).flatten
                    else q.elts_no_sp.getD []
        if ¬ callocOk then (ENOMEM, q3)
        else
          let q4 := { q3 with
                      elts_n := desc_n,
                      sp := sp_new,
                      elts_sp := if sp_new then some (chunkAux sgeN desc_n pool)
                                 else none,
                      elts_no_sp := if sp_new then none else some pool }
          if ¬ rdyOk then (EINVAL, q4)
          else
            let q5 := { q4 with wq_state := WqState.rdy }
            if ¬ postOk then ( EIO, q5)
            else (0, q5)

/-- The C4 queue: four single-segment descriptors, hardware queue
ready. -/
def rxqC4 : RxqR :=
  { elts_n := 4, sp := false, csum := false, csum_l2tun := false,
    elts_sp := none, elts_no_sp := some [7, 8, 9, 10],
    wq_state := WqState.rdy, cq_size := 4 }

/-- C4, counterexample: a rehash from non-scattered to scattered mode
whose element-array reallocation fails returns `ENOMEM` with the live
queue's work queue left in the RESET state it was put into before the
reallocation was attempted: the queue does **not** continue operating in
its previous mode, and the `wq_state` field of the live queue has been
mutated, falsifying the strong exception-safety claim. -/
theorem c4_rehash_counterexample :
    (rxq_rehash rxqC4 false false false true true 4
        true true true false true true).1 = ENOMEM
    ∧ (rxq_rehash rxqC4 false false false true true 4
        true true true false true true).2.wq_state = WqState.reset
    ∧ rxqC4.wq_state = WqState.rdy
    ∧ (rxq_rehash rxqC4 false false false true true 4
        true true true false true true).2 ≠ rxqC4 := by decide

/-- C4, amended: if the element-array reallocation fails during a mode
change, `rxq_rehash` returns `ENOMEM` and the **software** ring is
untouched: element count, mode flag and both ring pointers keep their
original values, so every buffer is still owned by the original ring.
The live **hardware** queue, however, is not restored: its work queue
was reset and its completion queue resized to the new descriptor count
before the reallocation was attempted (and the checksum flags were
already rewritten from the device configuration), so the queue does not
continue operating in its previous mode. -/
theorem c4_rehash_amended (q : RxqR)
    (hw_csum hw_csum_l2tun hw_ip_checksum jumbo lenExceeds : Bool)
    (sgeN : Nat) (rdyOk postOk : Bool)
    (hmode : (jumbo && lenExceeds) ≠ q.sp) :
    (rxq_rehash q hw_csum hw_csum_l2tun hw_ip_checksum jumbo lenExceeds
        sgeN true true true false rdyOk postOk).1 = ENOMEM
    ∧ (rxq_rehash q hw_csum hw_csum_l2tun hw_ip_checksum jumbo lenExceeds
        sgeN true true true false rdyOk postOk).2.elts_n = q.elts_n
    ∧ (rxq_rehash q hw_csum hw_csum_l2tun hw_ip_checksum jumbo lenExceeds
        sgeN true true true false rdyOk postOk).2.sp = q.sp
    ∧ (rxq_rehash q hw_csum hw_csum_l2tun hw_ip_checksum jumbo lenExceeds
        sgeN true true true false rdyOk postOk).2.elts_sp = q.elts_sp
    ∧ (rxq_rehash q hw_csum hw_csum_l2tun hw_ip_checksum jumbo lenExceeds
        sgeN true true true false rdyOk postOk).2.elts_no_sp = q.elts_no_sp
    ∧ (rxq_rehash q hw_csum hw_csum_l2tun hw_ip_checksum jumbo lenExceeds
        sgeN true true true false rdyOk postOk).2.wq_state = WqState.reset
    ∧ (rxq_rehash q hw_csum hw_csum_l2tun hw_ip_checksum jumbo lenExceeds
        sgeN true true true false rdyOk postOk).2.cq_size
        = rehash_desc_n q sgeN (jumbo && lenExceeds)
    ∧ (rxq_rehash q hw_csum hw_csum_l2tun hw_ip_checksum jumbo lenExceeds
        sgeN true true true false rdyOk postOk).2.csum
        = (if hw_csum then hw_ip_checksum else q.csum)
    ∧ (rxq_rehash q hw_csum hw_csum_l2tun hw_ip_checksum jumbo lenExceeds
        sgeN true true true false rdyOk postOk).2.csum_l2tun
        = (if hw_csum_l2tun then hw_ip_checksum else q.csum_l2tun) := by
  have heq : rxq_rehash q hw_csum hw_csum_l2tun hw_ip_checksum jumbo
      lenExceeds sgeN true true true false rdyOk postOk
      = (ENOMEM,
         { q with
           csum := if hw_csum then hw_ip_checksum else q.csum,
           csum_l2tun := if hw_csum_l2tun then hw_ip_checksum
                         else q.csum_l2tun,
           wq_state := WqState.reset,
           cq_size := rehash_desc_n q sgeN (jumbo && lenExceeds) }) := by
    unfold rxq_rehash
    rw [if_neg (by simp [hmode]), if_neg (by simp), if_neg (by simp),
      if_neg (by simp), if_pos (by simp)]
  rw [heq]
  exact ⟨rfl, rfl, rfl, rfl, rfl, rfl, rfl, rfl, rfl⟩

/-- C4, witness: the amended guarantees at the counterexample queue. -/
theorem c4_rehash_amended_witness :
    (rxq_rehash rxqC4 false false false true true 4
        true true true false true true).2.elts_no_sp = rxqC4.elts_no_sp
    ∧ (rxq_rehash rxqC4 false false false true true 4
        true true true false true true).2.sp = rxqC4.sp :=
  ⟨(c4_rehash_amended rxqC4 false false false true true 4 true true
      (by decide)).2.2.2.2.1,
   (c4_rehash_amended rxqC4 false false false true true 4 true true
      (by decide)).2.2.1⟩

end Mlx5
